import Mathlib

/-!
Verification of the secp256k1 arithmetic backend of go-dleq
(src/secp256k1/curve_ethereum.go) and of the DLEQ proof protocol
described in its specification.

Conventions of the shallow embedding:
* Go byte slices are `List Nat` whose elements are < 256.
* `big.Int` values in these code paths are non-negative and are modeled
  as `Nat`; the two places where Go computes a possibly negative
  intermediate (`Sub` before `Mod`) go through `Int` with Euclidean `%`,
  matching `big.Int.Mod` (result in `[0, m)` for `m > 0`).
* A Go function that can panic is modeled with an explicit outcome
  (`Option` with `none` = panic, or a dedicated outcome inductive).
* Calls into external libraries (go-ethereum's libsecp256k1 wrapper,
  crypto/sha256, x/crypto/sha3) are modeled as function parameters,
  constrained by the library's documented contract in each theorem's
  hypotheses.  Calls into Go's math/big `ModSqrt`/`Jacobi` are modeled
  executably by transcribing the algorithms math/big runs on these
  inputs (binary Jacobi; `a^((p+1)/4) mod p` since the secp256k1 field
  prime is ≡ 3 mod 4).
-/

set_option maxRecDepth 40000
set_option linter.unusedVariables false
set_option exponentiation.threshold 700

namespace Secp256k1

/-- Big-endian bytes to natural number, as `big.Int.SetBytes`. -/
def beToNat (bs : List Nat) : Nat := bs.foldl (fun acc b => acc * 256 + b) 0

/-- Zero-extended fixed-width big-endian bytes of `n` (width `w`). -/
def beBytesFixed : Nat → Nat → List Nat
  | 0, _ => []
  | w+1, n => beBytesFixed w (n / 256) ++ [n % 256]

/-- `big.Int.FillBytes` into a buffer of width `w`: panics (`none`) when the
value does not fit. -/
def fillBytes (w n : Nat) : Option (List Nat) :=
  if n < 256 ^ w then some (beBytesFixed w n) else none

/-- Minimal big-endian bytes of `n` (`big.Int.Bytes`, empty for zero);
fuel-based recursion on `n / 256`. -/
def natToBytesAux : Nat → Nat → List Nat
  | 0, _ => []
  | fuel+1, n => if n = 0 then [] else natToBytesAux fuel (n / 256) ++ [n % 256]

/-- Minimal big-endian bytes of `n`; 64 bytes of fuel covers all values
< 2^512, far above every value in this code base. -/
def natToBytes (n : Nat) : List Nat := natToBytesAux 64 n

/-- Fuel-based binary modular exponentiation `b ^ e mod m`. -/
def powMod : Nat → Nat → Nat → Nat → Nat
  | 0, _, _, m => 1 % m
  | fuel+1, b, e, m =>
    if e = 0 then 1 % m
    else
      let r := powMod fuel (b * b % m) (e / 2) m
      if e % 2 = 1 then r * b % m else r

/-- Count of trailing zero bits of `n` (0 for `n = 0`), fuel-based. -/
def ctz : Nat → Nat → Nat
  | 0, _ => 0
  | fuel+1, n => if n % 2 = 0 ∧ n ≠ 0 then ctz fuel (n / 2) + 1 else 0

/-- One pass of the binary Jacobi-symbol loop of Go's `math/big.Jacobi`
(restricted to non-negative `a` and odd positive `b`, which is how
`ModSqrt` calls it). -/
def jacobiAux : Nat → Nat → Nat → Int → Int
  | 0, _, _, j => j
  | fuel+1, a, b, j =>
    if b = 1 then j
    else if a = 0 then 0
    else
      let a' := a % b
      if a' = 0 then 0
      else
        let s := ctz 600 a'
        let j1 := if s % 2 = 1 ∧ (b % 8 = 3 ∨ b % 8 = 5) then -j else j
        let c := a' / 2 ^ s
        let j2 := if b % 4 = 3 ∧ c % 4 = 3 then -j1 else j1
        jacobiAux fuel b c j2

/-- Jacobi symbol `(a / b)` for odd `b`, as computed by `math/big.Jacobi`. -/
def jacobi (a b : Nat) : Int := jacobiAux 1000 a b 1

/-- `big.Int.ModSqrt` for the secp256k1 field prime: Go first computes the
Jacobi symbol (`nil`, i.e. `none`, when it is −1; zero when it is 0) and,
since the prime is ≡ 3 mod 4, otherwise returns `a^((p+1)/4) mod p`. -/
def modSqrt (a p : Nat) : Option Nat :=
  let j := jacobi a p
  if j = -1 then none
  else if j = 0 then some 0
  else some (powMod 600 (a % p) ((p + 1) / 4) p)

/-- Fuel-based extended Euclid: returns `(gcd a b, x, y)` with
`x*a + y*b = gcd a b` (used to model `big.Int.ModInverse`). -/
def egcd : Nat → Nat → Nat → Nat × Int × Int
  | 0, a, _ => (a, 1, 0)
  | fuel+1, a, b =>
    if b = 0 then (a, 1, 0)
    else
      let q := a / b
      let res := egcd fuel b (a % b)
      (res.1, res.2.2, res.2.1 - q * res.2.2)

/-- `big.Int.ModInverse g n`: the multiplicative inverse of `g` mod `n`
when `gcd g n = 1`, `none` (Go: `nil`) otherwise. -/
def modInverse (g n : Nat) : Option Nat :=
  let res := egcd (n + 1) g n
  if res.1 = 1 then some ((res.2.1 % (n : Int)).toNat) else none

/-- secp256k1 field prime (go-ethereum `S256().Params().P`). -/
def P : Nat := 0xfffffffffffffffffffffffffffffffffffffffffffffffffffffffefffffc2f

/-- secp256k1 group order: the `order` constant decoded in `NewCurve`,
equal to go-ethereum `S256().Params().N`. -/
def N : Nat := 0xfffffffffffffffffffffffffffffffebaaedce6af48a03bbfd25e8cd0364141

/-- x-coordinate of the generator, from `basePoint()`. -/
def gx : Nat := 0x79be667ef9dcbbac55a06295ce870b07029bfcdb2dce28d959f2815b16f81798

/-- y-coordinate of the generator, from `basePoint()`. -/
def gy : Nat := 0x483ada7726a3c4655da4fbfc0e1108a8fd17b448a68554199c47d08ffb10d4b8

/-- `ScalarImpl`: wraps the non-negative `big.Int` field `value`. -/
structure ScalarImpl where
  value : Nat
deriving DecidableEq

/-- `ScalarImpl.Add`: `(s + b) mod N`. -/
def ScalarImpl.Add (s b : ScalarImpl) : ScalarImpl := ⟨(s.value + b.value) % N⟩

/-- `ScalarImpl.Sub`: `Sub` then Euclidean `Mod N` (may pass through a
negative intermediate, hence `Int`). -/
def ScalarImpl.Sub (s b : ScalarImpl) : ScalarImpl :=
  ⟨(((s.value : Int) - (b.value : Int)) % (N : Int)).toNat⟩

/-- `ScalarImpl.Negate`: `N - s` then Euclidean `Mod N`. -/
def ScalarImpl.Negate (s : ScalarImpl) : ScalarImpl :=
  ⟨(((N : Int) - (s.value : Int)) % (N : Int)).toNat⟩

/-- `ScalarImpl.Mul`: `(s * b) mod N`. -/
def ScalarImpl.Mul (s b : ScalarImpl) : ScalarImpl := ⟨(s.value * b.value) % N⟩

/-- `ScalarImpl.Inverse`: `result.ModInverse(value, N)` on a pooled
`big.Int`.  The source then tests `result == nil` — but `result` is the
receiver pointer obtained from `getBigInt()`, never nil; the test meant
for `ModInverse`'s return value always fails, so the
`panic("scalar has no inverse")` branch is unreachable.  When no inverse
exists `ModInverse` leaves the receiver unchanged, and every `big.Int`
in the pool holds zero (`putBigInt` zeroes before returning to the pool
and the pool's `New` allocates a zero), so the method returns the
zero-valued scalar. -/
def ScalarImpl.Inverse (s : ScalarImpl) : ScalarImpl :=
  match modInverse s.value N with
  | some v => ⟨v⟩
  | none => ⟨0⟩

/-- `ScalarImpl.Encode`: 32-byte big-endian `FillBytes` (panic = `none`
when the value needs more than 32 bytes). -/
def ScalarImpl.Encode (s : ScalarImpl) : Option (List Nat) := fillBytes 32 s.value

/-- `ScalarImpl.Eq`. -/
def ScalarImpl.eqScalar (s o : ScalarImpl) : Bool := s.value == o.value

/-- `ScalarImpl.IsZero`. -/
def ScalarImpl.IsZero (s : ScalarImpl) : Bool := s.value == 0

/-- `PointImpl`: affine coordinates, non-negative `big.Int`s.  The Go
struct allows `nil` coordinates which every method replaces by zero on
entry; the model works directly with the defaulted value. -/
structure PointImpl where
  x : Nat
  y : Nat
deriving DecidableEq

/-- `PointImpl.Encode`: compressed 33-byte SEC encoding; prefix 0x03 when
y is odd (`py.Bit(0) == 1`), else 0x02, then the 32-byte `FillBytes` of x
(panic = `none` when x needs more than 32 bytes). -/
def PointImpl.Encode (p : PointImpl) : Option (List Nat) :=
  (fillBytes 32 p.x).map (fun xb => (if p.y % 2 = 1 then 3 else 2) :: xb)

/-- `PointImpl.Equals`: coordinate-wise comparison (`Cmp == 0`). -/
def PointImpl.Equals (p o : PointImpl) : Bool := p.x == o.x && p.y == o.y

/-- `PointImpl.IsZero`. -/
def PointImpl.IsZero (p : PointImpl) : Bool := p.x == 0 && p.y == 0

/-- `CurveImpl.BitSize`. -/
def BitSize : Nat := 255

/-- `CurveImpl.CompressedPointSize`. -/
def CompressedPointSize : Nat := 33

/-- `basePoint()` as stored by `NewCurve` and returned by `BasePoint()`. -/
def BasePoint : PointImpl := ⟨gx, gy⟩

/-- `decompressPoint x isOdd`: computes `x³ + 7 mod P`, takes `ModSqrt`
(`none` = the `panic("invalid point: no square root")` branch), then flips
the sign when the root's parity disagrees with `isOdd`. -/
def decompressPoint (x : Nat) (isOdd : Bool) : Option Nat :=
  let x3 := (x * x * x + 7) % P
  match modSqrt x3 P with
  | none => none
  | some y0 => some (if (y0 % 2 == 1) != isOdd then P - y0 else y0)

/-- Outcome of `CurveImpl.DecodeToPoint`: a point, a returned error, or a
panic inside `decompressPoint`. -/
inductive DecodeOutcome where
  | panicked
  | errored
  | ok (p : PointImpl)
deriving DecidableEq

/-- `CurveImpl.DecodeToPoint`: 33 bytes, prefix 0x02/0x03, big-endian x,
then `decompressPoint`. -/
def DecodeToPoint (inp : List Nat) : DecodeOutcome :=
  if inp.length ≠ 33 then .errored
  else if inp.getD 0 0 ≠ 2 ∧ inp.getD 0 0 ≠ 3 then .errored
  else
    match decompressPoint (beToNat (inp.drop 1)) (inp.getD 0 0 == 3) with
    | none => .panicked
    | some y => .ok ⟨beToNat (inp.drop 1), y⟩

/-- `CurveImpl.DecodeToScalar`: requires exactly 32 bytes and stores the
raw big-endian value, with no reduction mod `N`. -/
def DecodeToScalar (inp : List Nat) : Option ScalarImpl :=
  if inp.length ≠ 32 then none else some ⟨beToNat inp⟩

/-- `CurveImpl.ScalarFromBytes`: little-endian 32-byte input, reversed and
read big-endian; no reduction mod `N`. -/
def ScalarFromBytes (b : List Nat) : ScalarImpl := ⟨beToNat b.reverse⟩

/-- `CurveImpl.ScalarFromInt` (uint32 argument). -/
def ScalarFromInt (n : Nat) : ScalarImpl := ⟨n⟩

/-- `CurveImpl.NewRandomScalar`: 32 random bytes read big-endian, no
reduction mod `N`; the random source is a parameter. -/
def NewRandomScalar (randBytes : List Nat) : ScalarImpl := ⟨beToNat randBytes⟩

/-- `CurveImpl.HashToScalar`: SHA3-512 digest (the external
`sha3.Sum512`, a parameter here) read big-endian and reduced mod `N`;
always returns a scalar and a `nil` error. -/
def HashToScalar (sha3 : List Nat → List Nat) (inp : List Nat) : Option ScalarImpl :=
  some ⟨beToNat (sha3 inp) % N⟩

/-- `CurveImpl.ScalarBaseMul`: 32-byte `FillBytes` of the scalar (panic =
`none` when it does not fit) fed to the external
`S256().ScalarBaseMult`, a parameter here. -/
def ScalarBaseMul (libBaseMult : List Nat → Nat × Nat) (s : ScalarImpl) : Option PointImpl :=
  (fillBytes 32 s.value).map (fun b => ⟨(libBaseMult b).1, (libBaseMult b).2⟩)

/-- `CurveImpl.ScalarMul`: 32-byte `FillBytes` of the scalar fed to the
external `S256().ScalarMult` at the point's coordinates. -/
def ScalarMul (libMult : Nat → Nat → List Nat → Nat × Nat) (s : ScalarImpl) (p : PointImpl) :
    Option PointImpl :=
  (fillBytes 32 s.value).map (fun b => ⟨(libMult p.x p.y b).1, (libMult p.x p.y b).2⟩)

/-- `encodeDER`: minimal big-endian `r`/`s` bytes, a zero prepended when
the top bit is set, wrapped in SEQUENCE/INTEGER headers (header bytes are
`byte(...)` casts, hence mod 256). -/
def derIntBytes (v : Nat) : List Nat :=
  let b := natToBytes v
  if 0 < b.length ∧ 0x80 ≤ b.getD 0 0 then 0 :: b else b

/-- `encodeDER r s` from the source: `30 ‖ totalLen ‖ 02 ‖ len r ‖ r ‖ 02 ‖ len s ‖ s`. -/
def encodeDER (r s : Nat) : List Nat :=
  let rB := derIntBytes r
  let sB := derIntBytes s
  let total := 4 + rB.length + sB.length
  [0x30, total % 256, 0x02, rB.length % 256] ++ rB ++ [0x02, sB.length % 256] ++ sB

/-- Outcome of `decodeDER`: components, a returned error, or the
out-of-range index panic on the unchecked `sLen` read. -/
inductive DEROutcome where
  | panicked
  | errored
  | ok (r s : Nat)
deriving DecidableEq

/-- `decodeDER` from the source, check for check; reading `sLen` at
`offset = 4 + rLen + 1` is not bounds-checked in Go, hence the
`panicked` case. -/
def decodeDER (sig : List Nat) : DEROutcome :=
  if sig.length < 6 then .errored
  else if sig.getD 0 0 ≠ 0x30 then .errored
  else if sig.getD 2 0 ≠ 0x02 then .errored
  else
    let rLen := sig.getD 3 0
    if sig.length < 4 + rLen then .errored
    else
      let r := beToNat ((sig.drop 4).take rLen)
      let off := 4 + rLen
      if sig.length ≤ off then .errored
      else if sig.getD off 0 ≠ 0x02 then .errored
      else if sig.length ≤ off + 1 then .panicked
      else
        let sLen := sig.getD (off + 1) 0
        if off + 2 + sLen ≠ sig.length then .errored
        else .ok r (beToNat (sig.drop (off + 2)))

/-- `CurveImpl.Sign`: 32-byte private key from the scalar, message =
compressed point encoding, SHA-256 hash, external `ethsecp256k1.Sign`
(65-byte `r ‖ s ‖ v` signature or error), then DER encoding of
`r = sig[:32]`, `s = sig[32:64]` (that slicing panics when the returned
signature is shorter than 64 bytes).  `none` covers the
`FillBytes`/`Encode`/slicing panics and a library error. -/
def Sign (ethSign : List Nat → List Nat → Option (List Nat))
    (sha256 : List Nat → List Nat) (s : ScalarImpl) (p : PointImpl) : Option (List Nat) :=
  (fillBytes 32 s.value).bind fun priv =>
    p.Encode.bind fun msg =>
      (ethSign (sha256 msg) priv).bind fun sig =>
        if sig.length < 64 then none
        else some (encodeDER (beToNat (sig.take 32)) (beToNat ((sig.drop 32).take 32)))

/-- `CurveImpl.Verify`: DER-decode the signature (`false` on error),
repack `r ‖ s` into 64 bytes, build the 65-byte uncompressed public key
`04 ‖ x ‖ y`, hash the encoded message point, and call the external
`ethsecp256k1.VerifySignature` (a parameter).  `none` models the panics
(`FillBytes` overflow, `decodeDER` index panic, point encode panic). -/
def Verify (ethVerify : List Nat → List Nat → List Nat → Bool)
    (sha256 : List Nat → List Nat) (pubkey msgPoint : PointImpl) (sig : List Nat) :
    Option Bool :=
  match decodeDER sig with
  | .panicked => none
  | .errored => some false
  | .ok r s =>
    (fillBytes 32 r).bind fun rb =>
      (fillBytes 32 s).bind fun sb =>
        (fillBytes 32 pubkey.x).bind fun xb =>
          (fillBytes 32 pubkey.y).bind fun yb =>
            msgPoint.Encode.map fun msg =>
              ethVerify (4 :: (xb ++ yb)) (sha256 msg) (rb ++ sb)

/-- The 33-byte input `02 ‖ 00…00 05`: x = 5, and 5³ + 7 = 132 is a
quadratic non-residue modulo `P`. -/
def nonResidueInput : List Nat := 2 :: (List.replicate 31 0 ++ [5])

/-!
The DLEQ proof core itself (secret generation, bit commitments, per-bit
ring argument, witness signatures, verifier) is not among the source
files; only its tests and callers are.  The following model is therefore
built from the specification text (sections 3, 4.2, 4.3, 4.4, 4.5):
two groups of orders `n₁`/`n₂` with generators `G` and independent
generators `H`, Pedersen bit commitments `Cᵢ = bᵢ·G + rᵢ·H` in both
groups sharing the bit value, a two-branch OR (ring) argument per bit
with a joint Fiat–Shamir challenge split into branch challenges that sum
to it, disclosed aggregate blindings `R = Σ2ⁱ·rᵢ`, public points `x·G`,
and a witness signature per group over the public points.  Groups are
additive commutative groups that are modules over `ZMod n`; the
Fiat–Shamir hash and the signature primitives are parameters, as the
spec leaves them to the group engines.
-/

/-- Spec-modelled: per-bit OR-proof transcript for one group
(section 3, RingSignatureShare): nonce commitments for both branches,
both responses and both branch challenges. -/
structure RingShare (S Pt : Type) where
  A0 : Pt
  A1 : Pt
  z0 : S
  z1 : S
  c0 : S
  c1 : S

/-- Spec-modelled: one bit's linked pair of commitments and its two ring
shares (section 3, BitCommitmentPair and RingSignatureShare,
index-aligned). -/
structure BitProof (S₁ Pt₁ S₂ Pt₂ : Type) where
  CA : Pt₁
  CB : Pt₂
  ringA : RingShare S₁ Pt₁
  ringB : RingShare S₂ Pt₂

/-- Spec-modelled: the Proof artifact (section 3): bit proofs in index
order, the two public points `x·G`, the disclosed aggregate blindings,
and the two witness signatures. -/
structure DLEQProof (S₁ Pt₁ S₂ Pt₂ : Type) where
  bits : List (BitProof S₁ Pt₁ S₂ Pt₂)
  XA : Pt₁
  XB : Pt₂
  RA : S₁
  RB : S₂
  sigA : List Nat
  sigB : List Nat

/-- Bit `i` of the secret (LSB-first, one of the orders the spec allows
and requires to be fixed consistently between builder and verifier). -/
def secretBit (x i : ℕ) : ℕ := x / 2 ^ i % 2

/-- Spec-modelled (section 4.3): commit phase of the 2-branch OR proof.
The honest branch (the actual bit value) commits `k·H`; the simulated
branch picks its response `zs` and challenge `cs` in advance and solves
backward for its nonce commitment. -/
def ringCommit (n : ℕ) {Pt : Type} [AddCommGroup Pt] [Module (ZMod n) Pt]
    (G H C : Pt) (b : ℕ) (k zs cs : ZMod n) : Pt × Pt :=
  if b = 0 then (k • H, zs • H - cs • (C - G))
  else (zs • H - cs • C, k • H)

/-- Spec-modelled (section 4.3): response phase.  The joint challenge `e`
is split: the simulated branch keeps `cs`, the honest branch answers
challenge `e - cs` with response `k + (e - cs)·r`.  Returns
`(z0, z1, c0, c1)`. -/
def ringRespond (n : ℕ) (b : ℕ) (r k zs cs e : ZMod n) :
    ZMod n × ZMod n × ZMod n × ZMod n :=
  if b = 0 then (k + (e - cs) * r, zs, e - cs, cs)
  else (zs, k + (e - cs) * r, cs, e - cs)

/-- Spec-modelled (sections 4.2 and 4.3): builds bit `i`'s commitment
pair (`b·G + r·H` in each group, same bit, independent blinders) and the
two ring shares coupled by the joint Fiat–Shamir challenge
`e = fsHash(i, C_A, nonce commitments of A, C_B, nonce commitments of B)`
reduced into each group's scalar field. -/
def buildBit (n₁ n₂ : ℕ) {G₁ G₂ : Type} [AddCommGroup G₁] [AddCommGroup G₂]
    [Module (ZMod n₁) G₁] [Module (ZMod n₂) G₂]
    (GA HA : G₁) (GB HB : G₂)
    (fsHash : ℕ → G₁ × G₁ × G₁ → G₂ × G₂ × G₂ → ℕ)
    (i b : ℕ) (rA kA zsA csA : ZMod n₁) (rB kB zsB csB : ZMod n₂) :
    BitProof (ZMod n₁) G₁ (ZMod n₂) G₂ :=
  let CA := b • GA + rA • HA
  let CB := b • GB + rB • HB
  let aA := ringCommit n₁ GA HA CA b kA zsA csA
  let aB := ringCommit n₂ GB HB CB b kB zsB csB
  let e := fsHash i (CA, aA.1, aA.2) (CB, aB.1, aB.2)
  let zA := ringRespond n₁ b rA kA zsA csA ((e : ℕ) : ZMod n₁)
  let zB := ringRespond n₂ b rB kB zsB csB ((e : ℕ) : ZMod n₂)
  ⟨CA, CB, ⟨aA.1, aA.2, zA.1, zA.2.1, zA.2.2.1, zA.2.2.2⟩,
    ⟨aB.1, aB.2, zB.1, zB.2.1, zB.2.2.1, zB.2.2.2⟩⟩

/-- Spec-modelled: the per-bit construction over bit indices
`k, k+1, …, k+c-1` (the builder maps it over `0 … numBits-1`). -/
def buildBits (n₁ n₂ : ℕ) {G₁ G₂ : Type} [AddCommGroup G₁] [AddCommGroup G₂]
    [Module (ZMod n₁) G₁] [Module (ZMod n₂) G₂]
    (GA HA : G₁) (GB HB : G₂)
    (fsHash : ℕ → G₁ × G₁ × G₁ → G₂ × G₂ × G₂ → ℕ)
    (x : ℕ) (rA kA zsA csA : ℕ → ZMod n₁) (rB kB zsB csB : ℕ → ZMod n₂) :
    ℕ → ℕ → List (BitProof (ZMod n₁) G₁ (ZMod n₂) G₂)
  | _, 0 => []
  | k, c+1 =>
    buildBit n₁ n₂ GA HA GB HB fsHash k (secretBit x k)
        (rA k) (kA k) (zsA k) (csA k) (rB k) (kB k) (zsB k) (csB k) ::
      buildBits n₁ n₂ GA HA GB HB fsHash x rA kA zsA csA rB kB zsB csB (k + 1) c

/-- Spec-modelled (section 4.2): running aggregate blinding
`R = Σ 2ⁱ·rᵢ` over bit indices `k … k+c-1`. -/
def blindSum (n : ℕ) (r : ℕ → ZMod n) : ℕ → ℕ → ZMod n
  | _, 0 => 0
  | k, c+1 => ((2 ^ k : ℕ) : ZMod n) * r k + blindSum n r (k + 1) c

/-- Weighted bit recomposition `Σ 2ⁱ·bᵢ(x)` over indices `k … k+c-1`. -/
def bitRecompose (x : ℕ) : ℕ → ℕ → ℕ
  | _, 0 => 0
  | k, c+1 => 2 ^ k * secretBit x k + bitRecompose x (k + 1) c

/-- Spec-modelled (sections 4.2–4.4 and section 3's Proof layout):
`NewProof` with all randomness passed in as streams: per-bit blinders,
honest nonces, simulated responses and simulated challenges for both
groups.  Publishes `x·G` in both groups, the aggregate blindings, and
the witness signature of each group over the other group's public
point. -/
def NewProofModel (n₁ n₂ : ℕ) {G₁ G₂ : Type} [AddCommGroup G₁] [AddCommGroup G₂]
    [Module (ZMod n₁) G₁] [Module (ZMod n₂) G₂]
    (GA HA : G₁) (GB HB : G₂)
    (fsHash : ℕ → G₁ × G₁ × G₁ → G₂ × G₂ × G₂ → ℕ)
    (signA : ℕ → G₂ → List Nat) (signB : ℕ → G₁ → List Nat)
    (numBits x : ℕ)
    (rA kA zsA csA : ℕ → ZMod n₁) (rB kB zsB csB : ℕ → ZMod n₂) :
    DLEQProof (ZMod n₁) G₁ (ZMod n₂) G₂ :=
  ⟨buildBits n₁ n₂ GA HA GB HB fsHash x rA kA zsA csA rB kB zsB csB 0 numBits,
    (x : ZMod n₁) • GA, (x : ZMod n₂) • GB,
    blindSum n₁ rA 0 numBits, blindSum n₂ rB 0 numBits,
    signA x ((x : ZMod n₂) • GB), signB x ((x : ZMod n₁) • GA)⟩

/-- Spec-modelled (section 4.5 step 1, one group): both branch equations
hold and the branch challenges sum to the recomputed joint challenge. -/
def ringChecks (n : ℕ) {Pt : Type} [AddCommGroup Pt] [Module (ZMod n) Pt]
    (G H C : Pt) (rs : RingShare (ZMod n) Pt) (e : ZMod n) : Prop :=
  rs.c0 + rs.c1 = e ∧ rs.z0 • H = rs.A0 + rs.c0 • C ∧
    rs.z1 • H = rs.A1 + rs.c1 • (C - G)

/-- Spec-modelled (section 4.5 step 1): the verifier recomputes bit `i`'s
joint challenge from the stored transcript and checks both groups' ring
equations. -/
def bitCheck (n₁ n₂ : ℕ) {G₁ G₂ : Type} [AddCommGroup G₁] [AddCommGroup G₂]
    [Module (ZMod n₁) G₁] [Module (ZMod n₂) G₂]
    (GA HA : G₁) (GB HB : G₂)
    (fsHash : ℕ → G₁ × G₁ × G₁ → G₂ × G₂ × G₂ → ℕ)
    (i : ℕ) (bp : BitProof (ZMod n₁) G₁ (ZMod n₂) G₂) : Prop :=
  ringChecks n₁ GA HA bp.CA bp.ringA
    ((fsHash i (bp.CA, bp.ringA.A0, bp.ringA.A1) (bp.CB, bp.ringB.A0, bp.ringB.A1) : ℕ) :
      ZMod n₁) ∧
  ringChecks n₂ GB HB bp.CB bp.ringB
    ((fsHash i (bp.CA, bp.ringA.A0, bp.ringA.A1) (bp.CB, bp.ringB.A0, bp.ringB.A1) : ℕ) :
      ZMod n₂)

/-- Spec-modelled: all per-bit checks in index order starting at `k`. -/
def checkBits (n₁ n₂ : ℕ) {G₁ G₂ : Type} [AddCommGroup G₁] [AddCommGroup G₂]
    [Module (ZMod n₁) G₁] [Module (ZMod n₂) G₂]
    (GA HA : G₁) (GB HB : G₂)
    (fsHash : ℕ → G₁ × G₁ × G₁ → G₂ × G₂ × G₂ → ℕ) :
    ℕ → List (BitProof (ZMod n₁) G₁ (ZMod n₂) G₂) → Prop
  | _, [] => True
  | k, bp :: rest => bitCheck n₁ n₂ GA HA GB HB fsHash k bp ∧
      checkBits n₁ n₂ GA HA GB HB fsHash (k + 1) rest

/-- The telescoping weighted sum `Σ 2ⁱ·Cᵢ` over a commitment list whose
head has index `k`. -/
def weightedSum {Pt : Type} [AddCommGroup Pt] : ℕ → List Pt → Pt
  | _, [] => 0
  | k, C :: rest => 2 ^ k • C + weightedSum (k + 1) rest

/-- Spec-modelled (section 4.5): the verifier — bit count matches the
declared size, every per-bit ring check passes, the weighted commitment
sums telescope to `x·G + R·H` in both groups, and both witness
signatures verify.  Success of `Verify` is the conjunction holding. -/
def VerifyModel (n₁ n₂ : ℕ) {G₁ G₂ : Type} [AddCommGroup G₁] [AddCommGroup G₂]
    [Module (ZMod n₁) G₁] [Module (ZMod n₂) G₂]
    (GA HA : G₁) (GB HB : G₂)
    (fsHash : ℕ → G₁ × G₁ × G₁ → G₂ × G₂ × G₂ → ℕ)
    (verifyA : G₁ → G₂ → List Nat → Bool) (verifyB : G₂ → G₁ → List Nat → Bool)
    (numBits : ℕ) (pf : DLEQProof (ZMod n₁) G₁ (ZMod n₂) G₂) : Prop :=
  pf.bits.length = numBits ∧
  checkBits n₁ n₂ GA HA GB HB fsHash 0 pf.bits ∧
  weightedSum 0 (pf.bits.map (fun bp => bp.CA)) = pf.XA + pf.RA • HA ∧
  weightedSum 0 (pf.bits.map (fun bp => bp.CB)) = pf.XB + pf.RB • HB ∧
  verifyA pf.XA pf.XB pf.sigA = true ∧
  verifyB pf.XB pf.XA pf.sigB = true

end Secp256k1

namespace Secp256k1

theorem powMod_eq (fuel : Nat) : ∀ b e m, e < 2 ^ fuel → powMod fuel b e m = b ^ e % m := by
  induction fuel with
  | zero =>
    intro b e m he
    have he0 : e = 0 := by omega
    subst he0
    simp [powMod]
  | succ fuel ih =>
    intro b e m he
    by_cases h0 : e = 0
    · subst h0; simp [powMod]
    · have h2 : e / 2 < 2 ^ fuel := by
        have hp : (2 : Nat) ^ (fuel + 1) = 2 * 2 ^ fuel := by ring
        omega
      have hsplit : (b * b % m) ^ (e / 2) % m = b ^ (2 * (e / 2)) % m := by
        rw [← Nat.pow_mod, show b * b = b ^ 2 by ring, ← pow_mul]
      by_cases hp : e % 2 = 1
      · have he2 : 2 * (e / 2) + 1 = e := by omega
        simp only [powMod, h0, if_false, hp, if_true]
        rw [ih _ _ _ h2, hsplit, Nat.mod_mul_mod, ← pow_succ, he2]
      · have he2 : 2 * (e / 2) = e := by omega
        simp only [powMod, h0, if_false, hp, if_false]
        rw [ih _ _ _ h2, hsplit, he2]

theorem natCast_pow_eq_one_iff (g e m : Nat) (hm : 1 < m) (he : e < 2 ^ 600) :
    ((g : ZMod m) ^ e = 1) ↔ powMod 600 g e m = 1 := by
  rw [powMod_eq 600 g e m he, ← Nat.cast_pow,
    show (1 : ZMod m) = ((1 : Nat) : ZMod m) by norm_cast,
    ZMod.natCast_eq_natCast_iff', Nat.mod_eq_of_lt hm]

theorem prime_eq_of_dvd {q r : ℕ} (hq : q.Prime) (hr : r.Prime) (h : q ∣ r) : q = r :=
  (Nat.prime_dvd_prime_iff_eq hq hr).mp h

theorem prime_eq_of_dvd_pow {q r k : ℕ} (hq : q.Prime) (hr : r.Prime) (h : q ∣ r ^ k) : q = r :=
  prime_eq_of_dvd hq hr (hq.dvd_of_dvd_pow h)

theorem prime_120233 : Nat.Prime 120233 := by
  have hb : (120233 - 1 : Nat) = 2 ^ 3 * (7 * (19 * 113)) := by norm_num
  refine lucas_primality _ ((3 : Nat) : ZMod 120233) ?_ ?_
  · rw [natCast_pow_eq_one_iff _ _ _ (by norm_num) (by decide)]
    decide
  · intro q hq hdvd
    rw [hb] at hdvd
    have hq2 : q = 2 ∨ q = 7 ∨ q = 19 ∨ q = 113 := by
      rcases (Nat.Prime.dvd_mul hq).mp hdvd with h | h
      · exact Or.inl (prime_eq_of_dvd_pow hq (by norm_num) h)
      rcases (Nat.Prime.dvd_mul hq).mp h with h | h
      · exact Or.inr (Or.inl (prime_eq_of_dvd hq (by norm_num) h))
      rcases (Nat.Prime.dvd_mul hq).mp h with h | h
      · exact Or.inr (Or.inr (Or.inl (prime_eq_of_dvd hq (by norm_num) h)))
      · exact Or.inr (Or.inr (Or.inr (prime_eq_of_dvd hq (by norm_num) h)))
    rcases hq2 with rfl | rfl | rfl | rfl <;>
      · rw [Ne, natCast_pow_eq_one_iff _ _ _ (by norm_num) (by decide)]
        decide

theorem prime_305873 : Nat.Prime 305873 := by
  have hb : (305873 - 1 : Nat) = 2 ^ 4 * (7 * 2731) := by norm_num
  refine lucas_primality _ ((3 : Nat) : ZMod 305873) ?_ ?_
  · rw [natCast_pow_eq_one_iff _ _ _ (by norm_num) (by decide)]
    decide
  · intro q hq hdvd
    rw [hb] at hdvd
    have hq2 : q = 2 ∨ q = 7 ∨ q = 2731 := by
      rcases (Nat.Prime.dvd_mul hq).mp hdvd with h | h
      · exact Or.inl (prime_eq_of_dvd_pow hq (by norm_num) h)
      rcases (Nat.Prime.dvd_mul hq).mp h with h | h
      · exact Or.inr (Or.inl (prime_eq_of_dvd hq (by norm_num) h))
      · exact Or.inr (Or.inr (prime_eq_of_dvd hq (by norm_num) h))
    rcases hq2 with rfl | rfl | rfl <;>
      · rw [Ne, natCast_pow_eq_one_iff _ _ _ (by norm_num) (by decide)]
        decide

theorem prime_1627771 : Nat.Prime 1627771 := by
  have hb : (1627771 - 1 : Nat) = 2 * (3 * (5 * (29 * 1871))) := by norm_num
  refine lucas_primality _ ((3 : Nat) : ZMod 1627771) ?_ ?_
  · rw [natCast_pow_eq_one_iff _ _ _ (by norm_num) (by decide)]
    decide
  · intro q hq hdvd
    rw [hb] at hdvd
    have hq2 : q = 2 ∨ q = 3 ∨ q = 5 ∨ q = 29 ∨ q = 1871 := by
      rcases (Nat.Prime.dvd_mul hq).mp hdvd with h | h
      · exact Or.inl (prime_eq_of_dvd hq (by norm_num) h)
      rcases (Nat.Prime.dvd_mul hq).mp h with h | h
      · exact Or.inr (Or.inl (prime_eq_of_dvd hq (by norm_num) h))
      rcases (Nat.Prime.dvd_mul hq).mp h with h | h
      · exact Or.inr (Or.inr (Or.inl (prime_eq_of_dvd hq (by norm_num) h)))
      rcases (Nat.Prime.dvd_mul hq).mp h with h | h
      · exact Or.inr (Or.inr (Or.inr (Or.inl (prime_eq_of_dvd hq (by norm_num) h))))
      · exact Or.inr (Or.inr (Or.inr (Or.inr (prime_eq_of_dvd hq (by norm_num) h))))
    rcases hq2 with rfl | rfl | rfl | rfl | rfl <;>
      · rw [Ne, natCast_pow_eq_one_iff _ _ _ (by norm_num) (by decide)]
        decide

theorem prime_4681609 : Nat.Prime 4681609 := by
  have hb : (4681609 - 1 : Nat) = 2 ^ 3 * (3 * (97 * 2011)) := by norm_num
  refine lucas_primality _ ((23 : Nat) : ZMod 4681609) ?_ ?_
  · rw [natCast_pow_eq_one_iff _ _ _ (by norm_num) (by decide)]
    decide
  · intro q hq hdvd
    rw [hb] at hdvd
    have hq2 : q = 2 ∨ q = 3 ∨ q = 97 ∨ q = 2011 := by
      rcases (Nat.Prime.dvd_mul hq).mp hdvd with h | h
      · exact Or.inl (prime_eq_of_dvd_pow hq (by norm_num) h)
      rcases (Nat.Prime.dvd_mul hq).mp h with h | h
      · exact Or.inr (Or.inl (prime_eq_of_dvd hq (by norm_num) h))
      rcases (Nat.Prime.dvd_mul hq).mp h with h | h
      · exact Or.inr (Or.inr (Or.inl (prime_eq_of_dvd hq (by norm_num) h)))
      · exact Or.inr (Or.inr (Or.inr (prime_eq_of_dvd hq (by norm_num) h)))
    rcases hq2 with rfl | rfl | rfl | rfl <;>
      · rw [Ne, natCast_pow_eq_one_iff _ _ _ (by norm_num) (by decide)]
        decide

theorem prime_44706919 : Nat.Prime 44706919 := by
  have hb : (44706919 - 1 : Nat) = 2 * (3 * (797 * 9349)) := by norm_num
  refine lucas_primality _ ((6 : Nat) : ZMod 44706919) ?_ ?_
  · rw [natCast_pow_eq_one_iff _ _ _ (by norm_num) (by decide)]
    decide
  · intro q hq hdvd
    rw [hb] at hdvd
    have hq2 : q = 2 ∨ q = 3 ∨ q = 797 ∨ q = 9349 := by
      rcases (Nat.Prime.dvd_mul hq).mp hdvd with h | h
      · exact Or.inl (prime_eq_of_dvd hq (by norm_num) h)
      rcases (Nat.Prime.dvd_mul hq).mp h with h | h
      · exact Or.inr (Or.inl (prime_eq_of_dvd hq (by norm_num) h))
      rcases (Nat.Prime.dvd_mul hq).mp h with h | h
      · exact Or.inr (Or.inr (Or.inl (prime_eq_of_dvd hq (by norm_num) h)))
      · exact Or.inr (Or.inr (Or.inr (prime_eq_of_dvd hq (by norm_num) h)))
    rcases hq2 with rfl | rfl | rfl | rfl <;>
      · rw [Ne, natCast_pow_eq_one_iff _ _ _ (by norm_num) (by decide)]
        decide

theorem prime_545358713 : Nat.Prime 545358713 := by
  have hb : (545358713 - 1 : Nat) = 2 ^ 3 * (41 * (59 * 28181)) := by norm_num
  refine lucas_primality _ ((5 : Nat) : ZMod 545358713) ?_ ?_
  · rw [natCast_pow_eq_one_iff _ _ _ (by norm_num) (by decide)]
    decide
  · intro q hq hdvd
    rw [hb] at hdvd
    have hq2 : q = 2 ∨ q = 41 ∨ q = 59 ∨ q = 28181 := by
      rcases (Nat.Prime.dvd_mul hq).mp hdvd with h | h
      · exact Or.inl (prime_eq_of_dvd_pow hq (by norm_num) h)
      rcases (Nat.Prime.dvd_mul hq).mp h with h | h
      · exact Or.inr (Or.inl (prime_eq_of_dvd hq (by norm_num) h))
      rcases (Nat.Prime.dvd_mul hq).mp h with h | h
      · exact Or.inr (Or.inr (Or.inl (prime_eq_of_dvd hq (by norm_num) h)))
      · exact Or.inr (Or.inr (Or.inr (prime_eq_of_dvd hq (by norm_num) h)))
    rcases hq2 with rfl | rfl | rfl | rfl <;>
      · rw [Ne, natCast_pow_eq_one_iff _ _ _ (by norm_num) (by decide)]
        decide

theorem prime_297159362677 : Nat.Prime 297159362677 := by
  have hb : (297159362677 - 1 : Nat) = 2 ^ 2 * (3 ^ 2 * (11 * (461 * 1627771))) := by norm_num
  refine lucas_primality _ ((2 : Nat) : ZMod 297159362677) ?_ ?_
  · rw [natCast_pow_eq_one_iff _ _ _ (by norm_num) (by decide)]
    decide
  · intro q hq hdvd
    rw [hb] at hdvd
    have h11 : Nat.Prime 11 := by norm_num
    have h461 : Nat.Prime 461 := by norm_num
    have h1627771 : Nat.Prime 1627771 := prime_1627771
    have hq2 : q = 2 ∨ q = 3 ∨ q = 11 ∨ q = 461 ∨ q = 1627771 := by
      rcases (Nat.Prime.dvd_mul hq).mp hdvd with h | h
      · exact Or.inl (prime_eq_of_dvd_pow hq (by norm_num) h)
      rcases (Nat.Prime.dvd_mul hq).mp h with h | h
      · exact Or.inr (Or.inl (prime_eq_of_dvd_pow hq (by norm_num) h))
      rcases (Nat.Prime.dvd_mul hq).mp h with h | h
      · exact Or.inr (Or.inr (Or.inl (prime_eq_of_dvd hq h11 h)))
      rcases (Nat.Prime.dvd_mul hq).mp h with h | h
      · exact Or.inr (Or.inr (Or.inr (Or.inl (prime_eq_of_dvd hq h461 h))))
      · exact Or.inr (Or.inr (Or.inr (Or.inr (prime_eq_of_dvd hq h1627771 h))))
    rcases hq2 with rfl | rfl | rfl | rfl | rfl <;>
      · rw [Ne, natCast_pow_eq_one_iff _ _ _ (by norm_num) (by decide)]
        decide

theorem prime_29047611873442575647497758179 : Nat.Prime 29047611873442575647497758179 := by
  have hb : (29047611873442575647497758179 - 1 : Nat) =
      2 * (293 * (305873 * (545358713 * 297159362677))) := by norm_num
  refine lucas_primality _ ((2 : Nat) : ZMod 29047611873442575647497758179) ?_ ?_
  · rw [natCast_pow_eq_one_iff _ _ _ (by norm_num) (by decide)]
    decide
  · intro q hq hdvd
    rw [hb] at hdvd
    have hq2 : q = 2 ∨ q = 293 ∨ q = 305873 ∨ q = 545358713 ∨ q = 297159362677 := by
      rcases (Nat.Prime.dvd_mul hq).mp hdvd with h | h
      · exact Or.inl (prime_eq_of_dvd hq (by norm_num) h)
      rcases (Nat.Prime.dvd_mul hq).mp h with h | h
      · exact Or.inr (Or.inl (prime_eq_of_dvd hq (by norm_num) h))
      rcases (Nat.Prime.dvd_mul hq).mp h with h | h
      · exact Or.inr (Or.inr (Or.inl (prime_eq_of_dvd hq prime_305873 h)))
      rcases (Nat.Prime.dvd_mul hq).mp h with h | h
      · exact Or.inr (Or.inr (Or.inr (Or.inl (prime_eq_of_dvd hq prime_545358713 h))))
      · exact Or.inr (Or.inr (Or.inr (Or.inr
          (prime_eq_of_dvd hq prime_297159362677 h))))
    rcases hq2 with rfl | rfl | rfl | rfl | rfl <;>
      · rw [Ne, natCast_pow_eq_one_iff _ _ _ (by norm_num) (by decide)]
        decide

theorem prime_341948486974166000522343609283189 :
    Nat.Prime 341948486974166000522343609283189 := by
  have hb : (341948486974166000522343609283189 - 1 : Nat) =
      2 ^ 2 * (3 ^ 3 * (109 * 29047611873442575647497758179)) := by norm_num
  refine lucas_primality _ ((2 : Nat) : ZMod 341948486974166000522343609283189) ?_ ?_
  · rw [natCast_pow_eq_one_iff _ _ _ (by norm_num) (by decide)]
    decide
  · intro q hq hdvd
    rw [hb] at hdvd
    have hq2 : q = 2 ∨ q = 3 ∨ q = 109 ∨ q = 29047611873442575647497758179 := by
      rcases (Nat.Prime.dvd_mul hq).mp hdvd with h | h
      · exact Or.inl (prime_eq_of_dvd_pow hq (by norm_num) h)
      rcases (Nat.Prime.dvd_mul hq).mp h with h | h
      · exact Or.inr (Or.inl (prime_eq_of_dvd_pow hq (by norm_num) h))
      rcases (Nat.Prime.dvd_mul hq).mp h with h | h
      · exact Or.inr (Or.inr (Or.inl (prime_eq_of_dvd hq (by norm_num) h)))
      · exact Or.inr (Or.inr (Or.inr
          (prime_eq_of_dvd hq prime_29047611873442575647497758179 h)))
    rcases hq2 with rfl | rfl | rfl | rfl <;>
      · rw [Ne, natCast_pow_eq_one_iff _ _ _ (by norm_num) (by decide)]
        decide

theorem prime_174723607534414371449 : Nat.Prime 174723607534414371449 := by
  have hb : (174723607534414371449 - 1 : Nat) =
      2 ^ 3 * (17 * (59 * (4051 * (120233 * 44706919)))) := by norm_num
  refine lucas_primality _ ((3 : Nat) : ZMod 174723607534414371449) ?_ ?_
  · rw [natCast_pow_eq_one_iff _ _ _ (by norm_num) (by decide)]
    decide
  · intro q hq hdvd
    rw [hb] at hdvd
    have hq2 : q = 2 ∨ q = 17 ∨ q = 59 ∨ q = 4051 ∨ q = 120233 ∨ q = 44706919 := by
      rcases (Nat.Prime.dvd_mul hq).mp hdvd with h | h
      · exact Or.inl (prime_eq_of_dvd_pow hq (by norm_num) h)
      rcases (Nat.Prime.dvd_mul hq).mp h with h | h
      · exact Or.inr (Or.inl (prime_eq_of_dvd hq (by norm_num) h))
      rcases (Nat.Prime.dvd_mul hq).mp h with h | h
      · exact Or.inr (Or.inr (Or.inl (prime_eq_of_dvd hq (by norm_num) h)))
      rcases (Nat.Prime.dvd_mul hq).mp h with h | h
      · exact Or.inr (Or.inr (Or.inr (Or.inl (prime_eq_of_dvd hq (by norm_num) h))))
      rcases (Nat.Prime.dvd_mul hq).mp h with h | h
      · exact Or.inr (Or.inr (Or.inr (Or.inr (Or.inl (prime_eq_of_dvd hq prime_120233 h)))))
      · exact Or.inr (Or.inr (Or.inr (Or.inr (Or.inr (prime_eq_of_dvd hq prime_44706919 h)))))
    rcases hq2 with rfl | rfl | rfl | rfl | rfl | rfl <;>
      · rw [Ne, natCast_pow_eq_one_iff _ _ _ (by norm_num) (by decide)]
        decide

theorem prime_107361793816595537 : Nat.Prime 107361793816595537 := by
  have hb : (107361793816595537 - 1 : Nat) = 2 ^ 4 * (16699 * (85831 * 4681609)) := by norm_num
  refine lucas_primality _ ((3 : Nat) : ZMod 107361793816595537) ?_ ?_
  · rw [natCast_pow_eq_one_iff _ _ _ (by norm_num) (by decide)]
    decide
  · intro q hq hdvd
    rw [hb] at hdvd
    have hq2 : q = 2 ∨ q = 16699 ∨ q = 85831 ∨ q = 4681609 := by
      rcases (Nat.Prime.dvd_mul hq).mp hdvd with h | h
      · exact Or.inl (prime_eq_of_dvd_pow hq (by norm_num) h)
      rcases (Nat.Prime.dvd_mul hq).mp h with h | h
      · exact Or.inr (Or.inl (prime_eq_of_dvd hq (by norm_num) h))
      rcases (Nat.Prime.dvd_mul hq).mp h with h | h
      · exact Or.inr (Or.inr (Or.inl (prime_eq_of_dvd hq (by norm_num) h)))
      · exact Or.inr (Or.inr (Or.inr (prime_eq_of_dvd hq prime_4681609 h)))
    rcases hq2 with rfl | rfl | rfl | rfl <;>
      · rw [Ne, natCast_pow_eq_one_iff _ _ _ (by norm_num) (by decide)]
        decide

/-- The secp256k1 group order (the curve's `order` constant) is prime;
Lucas certificate with witness 7 and the known factorization of `N - 1`. -/
theorem N_prime : Nat.Prime N := by
  have hb : (N - 1 : Nat) = 2 ^ 6 * (3 * (149 * (631 * (107361793816595537 *
      (174723607534414371449 * 341948486974166000522343609283189))))) := by decide
  refine lucas_primality _ ((7 : Nat) : ZMod N) ?_ ?_
  · rw [natCast_pow_eq_one_iff _ _ _ (by decide) (by decide)]
    decide
  · intro q hq hdvd
    rw [hb] at hdvd
    have hq2 : q = 2 ∨ q = 3 ∨ q = 149 ∨ q = 631 ∨ q = 107361793816595537 ∨
        q = 174723607534414371449 ∨ q = 341948486974166000522343609283189 := by
      rcases (Nat.Prime.dvd_mul hq).mp hdvd with h | h
      · exact Or.inl (prime_eq_of_dvd_pow hq (by norm_num) h)
      rcases (Nat.Prime.dvd_mul hq).mp h with h | h
      · exact Or.inr (Or.inl (prime_eq_of_dvd hq (by norm_num) h))
      rcases (Nat.Prime.dvd_mul hq).mp h with h | h
      · exact Or.inr (Or.inr (Or.inl (prime_eq_of_dvd hq (by norm_num) h)))
      rcases (Nat.Prime.dvd_mul hq).mp h with h | h
      · exact Or.inr (Or.inr (Or.inr (Or.inl (prime_eq_of_dvd hq (by norm_num) h))))
      rcases (Nat.Prime.dvd_mul hq).mp h with h | h
      · exact Or.inr (Or.inr (Or.inr (Or.inr (Or.inl
          (prime_eq_of_dvd hq prime_107361793816595537 h)))))
      rcases (Nat.Prime.dvd_mul hq).mp h with h | h
      · exact Or.inr (Or.inr (Or.inr (Or.inr (Or.inr (Or.inl
          (prime_eq_of_dvd hq prime_174723607534414371449 h))))))
      · exact Or.inr (Or.inr (Or.inr (Or.inr (Or.inr (Or.inr
          (prime_eq_of_dvd hq prime_341948486974166000522343609283189 h))))))
    rcases hq2 with rfl | rfl | rfl | rfl | rfl | rfl | rfl <;>
      · rw [Ne, natCast_pow_eq_one_iff _ _ _ (by decide) (by decide)]
        decide

theorem beBytesFixed_length (w n : Nat) : (beBytesFixed w n).length = w := by
  induction w generalizing n with
  | zero => rfl
  | succ w ih => simp [beBytesFixed, ih]

theorem beToNat_append (l m : List Nat) :
    beToNat (l ++ m) = beToNat l * 256 ^ m.length + beToNat m := by
  induction m using List.reverseRecOn generalizing l with
  | nil => simp [beToNat]
  | append_singleton m b ih =>
    rw [← List.append_assoc]
    simp only [beToNat, List.foldl_append, List.foldl_cons, List.foldl_nil] at *
    have h1 := ih l
    simp only [beToNat] at h1
    simp [h1, List.length_append, pow_succ]
    ring

theorem beToNat_beBytesFixed (w n : Nat) (h : n < 256 ^ w) :
    beToNat (beBytesFixed w n) = n := by
  induction w generalizing n with
  | zero => simp [beBytesFixed, beToNat]; omega
  | succ w ih =>
    have hdiv : n / 256 < 256 ^ w := by
      rw [Nat.div_lt_iff_lt_mul (by norm_num)]
      calc n < 256 ^ (w + 1) := h
        _ = 256 ^ w * 256 := by rw [pow_succ]
    rw [beBytesFixed, beToNat_append, ih _ hdiv]
    simp [beToNat]
    omega

theorem beToNat_cons (b : Nat) (t : List Nat) :
    beToNat (b :: t) = b * 256 ^ t.length + beToNat t := by
  have h := beToNat_append [b] t
  simpa [beToNat] using h

theorem beToNat_lt (l : List Nat) (h : ∀ b ∈ l, b < 256) : beToNat l < 256 ^ l.length := by
  induction l with
  | nil => simp [beToNat]
  | cons b t ih =>
    have hb : b < 256 := h b (List.mem_cons_self b t)
    have ht : beToNat t < 256 ^ t.length := ih (fun c hc => h c (List.mem_cons_of_mem b hc))
    rw [beToNat_cons]
    calc b * 256 ^ t.length + beToNat t < b * 256 ^ t.length + 256 ^ t.length := by omega
      _ = (b + 1) * 256 ^ t.length := by ring
      _ ≤ 256 * 256 ^ t.length := by
          exact Nat.mul_le_mul_right _ (by omega)
      _ = 256 ^ (b :: t).length := by rw [List.length_cons]; ring

theorem beBytesFixed_beToNat (l : List Nat) (h : ∀ b ∈ l, b < 256) :
    beBytesFixed l.length (beToNat l) = l := by
  induction l using List.reverseRecOn with
  | nil => simp [beBytesFixed, beToNat]
  | append_singleton t b ih =>
    have hb : b < 256 := h b (by simp)
    have ht : ∀ c ∈ t, c < 256 := fun c hc => h c (by simp [hc])
    have hval : beToNat (t ++ [b]) = beToNat t * 256 + b := by
      rw [beToNat_append]; simp [beToNat]
    have hdq : (beToNat t * 256 + b) / 256 = beToNat t := by omega
    have hmq : (beToNat t * 256 + b) % 256 = b := by omega
    rw [List.length_append, List.length_singleton, hval, beBytesFixed, hdq, hmq, ih ht]

theorem beBytesFixed_all_lt (w n : Nat) : ∀ b ∈ beBytesFixed w n, b < 256 := by
  induction w generalizing n with
  | zero => simp [beBytesFixed]
  | succ w ih =>
    intro b hb
    rw [beBytesFixed] at hb
    rcases List.mem_append.mp hb with h | h
    · exact ih _ b h
    · simp at h; omega

theorem natToBytesAux_beToNat (fuel n : Nat) (h : n < 256 ^ fuel) :
    beToNat (natToBytesAux fuel n) = n := by
  induction fuel generalizing n with
  | zero => simp [natToBytesAux, beToNat]; omega
  | succ fuel ih =>
    by_cases h0 : n = 0
    · subst h0; simp [natToBytesAux, beToNat]
    · have hdiv : n / 256 < 256 ^ fuel := by
        rw [Nat.div_lt_iff_lt_mul (by norm_num)]
        calc n < 256 ^ (fuel + 1) := h
          _ = 256 ^ fuel * 256 := by rw [pow_succ]
      rw [natToBytesAux, if_neg h0, beToNat_append, ih _ hdiv]
      simp [beToNat]
      omega

theorem natToBytesAux_length (fuel n k : Nat) (h : n < 256 ^ k) :
    (natToBytesAux fuel n).length ≤ k := by
  induction fuel generalizing n k with
  | zero => simp [natToBytesAux]
  | succ fuel ih =>
    by_cases h0 : n = 0
    · subst h0; simp [natToBytesAux]
    · have hk : 0 < k := by
        rcases Nat.eq_zero_or_pos k with hk0 | hk0
        · subst hk0; simp at h; omega
        · exact hk0
      have hdiv : n / 256 < 256 ^ (k - 1) := by
        rw [Nat.div_lt_iff_lt_mul (by norm_num)]
        calc n < 256 ^ k := h
          _ = 256 ^ (k - 1) * 256 := by
              rw [← pow_succ]
              congr 1
              omega
      rw [natToBytesAux, if_neg h0, List.length_append]
      have := ih (n / 256) (k - 1) hdiv
      simp
      omega

theorem natToBytesAux_all_lt (fuel n : Nat) : ∀ b ∈ natToBytesAux fuel n, b < 256 := by
  induction fuel generalizing n with
  | zero => simp [natToBytesAux]
  | succ fuel ih =>
    intro b hb
    by_cases h0 : n = 0
    · subst h0; simp [natToBytesAux] at hb
    · rw [natToBytesAux, if_neg h0] at hb
      rcases List.mem_append.mp hb with h | h
      · exact ih _ b h
      · simp at h; omega

theorem beToNat_natToBytes (n : Nat) (h : n < 256 ^ 64) : beToNat (natToBytes n) = n :=
  natToBytesAux_beToNat 64 n h

theorem beToNat_derIntBytes (v : Nat) (h : v < 256 ^ 64) : beToNat (derIntBytes v) = v := by
  have hv := beToNat_natToBytes v h
  rw [derIntBytes]
  by_cases hc : 0 < (natToBytes v).length ∧ 0x80 ≤ (natToBytes v).getD 0 0
  · rw [if_pos hc, beToNat_cons]
    simpa using hv
  · rw [if_neg hc]
    exact hv

theorem derIntBytes_length (v k : Nat) (h : v < 256 ^ k) :
    (derIntBytes v).length ≤ k + 1 := by
  have hlen : (natToBytes v).length ≤ k := natToBytesAux_length 64 v k h
  rw [derIntBytes]
  by_cases hc : 0 < (natToBytes v).length ∧ 0x80 ≤ (natToBytes v).getD 0 0
  · rw [if_pos hc]
    simp
    omega
  · rw [if_neg hc]
    omega

theorem derIntBytes_all_lt (v : Nat) : ∀ b ∈ derIntBytes v, b < 256 := by
  intro b hb
  have hmem : ∀ d ∈ natToBytes v, d < 256 := natToBytesAux_all_lt 64 v
  rw [derIntBytes] at hb
  by_cases hc : 0 < (natToBytes v).length ∧ 0x80 ≤ (natToBytes v).getD 0 0
  · rw [if_pos hc] at hb
    rcases List.mem_cons.mp hb with hb | hb
    · omega
    · exact hmem b hb
  · rw [if_neg hc] at hb
    exact hmem b hb

theorem getD_append_length (A l : List Nat) (k d : Nat) :
    (A ++ l).getD (A.length + k) d = l.getD k d := by
  induction A with
  | nil => simp
  | cons a A ih =>
    have : (a :: A).length + k = (A.length + k) + 1 := by simp; omega
    rw [this, List.cons_append, List.getD_cons_succ, ih]

/-- The DER codec of the source round-trips on every pair of components
that fits in 32 bytes. -/
theorem decodeDER_encodeDER (r s : Nat) (hr : r < 256 ^ 32) (hs : s < 256 ^ 32) :
    decodeDER (encodeDER r s) = DEROutcome.ok r s := by
  have hr64 : r < 256 ^ 64 := lt_of_lt_of_le hr (by norm_num)
  have hs64 : s < 256 ^ 64 := lt_of_lt_of_le hs (by norm_num)
  have hrlen : (derIntBytes r).length ≤ 33 := derIntBytes_length r 32 hr
  have hslen : (derIntBytes s).length ≤ 33 := derIntBytes_length s 32 hs
  have hrval : beToNat (derIntBytes r) = r := beToNat_derIntBytes r hr64
  have hsval : beToNat (derIntBytes s) = s := beToNat_derIntBytes s hs64
  generalize hB : derIntBytes r = B at hrlen hrval
  generalize hC : derIntBytes s = C at hslen hsval
  have hLR : B.length % 256 = B.length := Nat.mod_eq_of_lt (by omega)
  have hLC : C.length % 256 = C.length := Nat.mod_eq_of_lt (by omega)
  have henc : encodeDER r s =
      (0x30 :: ((4 + B.length + C.length) % 256) :: 0x02 :: B.length :: B) ++
        (0x02 :: C.length :: C) := by
    rw [encodeDER, hB, hC]
    simp [List.append_assoc, hLR, hLC]
  rw [henc]
  generalize (4 + B.length + C.length) % 256 = T
  have hAlen : (0x30 :: T :: 0x02 :: B.length :: B).length = 4 + B.length := by
    simp
    omega
  have hlen : ((0x30 :: T :: 0x02 :: B.length :: B) ++ (0x02 :: C.length :: C)).length
      = B.length + C.length + 6 := by
    simp only [List.length_append, List.length_cons]
    omega
  have hg3 : ((0x30 :: T :: 0x02 :: B.length :: B) ++ (0x02 :: C.length :: C)).getD 3 0
      = B.length := rfl
  have hdrop4 : ((((0x30 :: T :: 0x02 :: B.length :: B) ++
      (0x02 :: C.length :: C)).drop 4).take B.length) = B := by
    have hsplit : (0x30 :: T :: 0x02 :: B.length :: B) ++ (0x02 :: C.length :: C)
        = 0x30 :: T :: 0x02 :: B.length :: (B ++ (0x02 :: C.length :: C)) := by simp
    rw [hsplit]
    simp only [List.drop_succ_cons, List.drop_zero]
    exact List.take_left B _
  have hgoff : ((0x30 :: T :: 0x02 :: B.length :: B) ++ (0x02 :: C.length :: C)).getD
      (4 + B.length) 0 = 2 := by
    have hidx : 4 + B.length = (0x30 :: T :: 0x02 :: B.length :: B).length + 0 := by
      rw [hAlen]
      omega
    rw [hidx, getD_append_length]
    rfl
  have hgoff1 : ((0x30 :: T :: 0x02 :: B.length :: B) ++ (0x02 :: C.length :: C)).getD
      (4 + B.length + 1) 0 = C.length := by
    have hidx : 4 + B.length + 1 = (0x30 :: T :: 0x02 :: B.length :: B).length + 1 := by
      rw [hAlen]
    rw [hidx, getD_append_length]
    rfl
  have hdropS : ((0x30 :: T :: 0x02 :: B.length :: B) ++ (0x02 :: C.length :: C)).drop
      (4 + B.length + 2) = C := by
    have hidx : 4 + B.length + 2 = (0x30 :: T :: 0x02 :: B.length :: B).length + 2 := by
      rw [hAlen]
    rw [hidx, ← List.drop_drop, List.drop_left]
    rfl
  have hg0 : ((0x30 :: T :: 0x02 :: B.length :: B) ++ (0x02 :: C.length :: C)).getD 0 0
      = 0x30 := rfl
  have hg2 : ((0x30 :: T :: 0x02 :: B.length :: B) ++ (0x02 :: C.length :: C)).getD 2 0
      = 0x02 := rfl
  simp only [decodeDER]
  rw [hlen, hg0, hg2, hg3, hgoff, hgoff1, hdrop4, hdropS]
  rw [if_neg (by omega : ¬ (B.length + C.length + 6 < 6))]
  rw [if_neg (by decide : ¬ ((0x30 : Nat) ≠ 0x30))]
  rw [if_neg (by decide : ¬ ((0x02 : Nat) ≠ 0x02))]
  rw [if_neg (by omega : ¬ (B.length + C.length + 6 < 4 + B.length))]
  rw [if_neg (by omega : ¬ (B.length + C.length + 6 ≤ 4 + B.length))]
  rw [if_neg (by decide : ¬ ((2 : Nat) ≠ 0x02))]
  rw [if_neg (by omega : ¬ (B.length + C.length + 6 ≤ 4 + B.length + 1))]
  rw [if_neg (by omega : ¬ (4 + B.length + 2 + C.length ≠ B.length + C.length + 6))]
  rw [hrval, hsval]

theorem egcd_spec (fuel : Nat) : ∀ a b, b < fuel →
    (egcd fuel a b).1 = Nat.gcd a b ∧
    (egcd fuel a b).2.1 * (a : Int) + (egcd fuel a b).2.2 * (b : Int) = (Nat.gcd a b : Int) := by
  induction fuel with
  | zero => intro a b h; omega
  | succ fuel ih =>
    intro a b hb
    by_cases h0 : b = 0
    · subst h0
      simp [egcd]
    · have hmod : a % b < fuel :=
        lt_of_lt_of_le (Nat.mod_lt a (Nat.pos_of_ne_zero h0)) (by omega)
      obtain ⟨ih1, ih2⟩ := ih b (a % b) hmod
      have hgcd : Nat.gcd b (a % b) = Nat.gcd a b := by
        rw [Nat.gcd_comm b (a % b), ← Nat.gcd_rec b a, Nat.gcd_comm]
      have hmodInt : ((a % b : Nat) : Int) = (a : Int) - (b : Int) * ((a / b : Nat) : Int) := by
        have h2 := Nat.mod_add_div a b
        have h3 : ((a % b : Nat) : Int) + (b : Int) * ((a / b : Nat) : Int) = (a : Int) := by
          exact_mod_cast h2
        linarith
      rw [hgcd] at ih1 ih2
      constructor
      · simp only [egcd, if_neg h0]
        exact ih1
      · simp only [egcd, if_neg h0]
        linear_combination ih2 - ((egcd fuel b (a % b)).2.2 : Int) * hmodInt

theorem modInverse_eq_none (g n : Nat) (h : Nat.gcd g n ≠ 1) : modInverse g n = none := by
  have h1 := (egcd_spec (n + 1) g n (by omega)).1
  simp only [modInverse]
  rw [if_neg]
  rw [h1]
  exact h

theorem modInverse_some (g n : Nat) (hn : 1 < n) (h : Nat.gcd g n = 1) :
    ∃ v, modInverse g n = some v ∧ v < n ∧ (g * v) % n = 1 := by
  obtain ⟨h1, h2⟩ := egcd_spec (n + 1) g n (by omega)
  rw [h] at h1 h2
  have hne : (n : Int) ≠ 0 := by
    intro hc
    omega
  have hpos : (0 : Int) < (n : Int) := by
    omega
  have hnonneg : 0 ≤ (egcd (n + 1) g n).2.1 % (n : Int) := Int.emod_nonneg _ hne
  have hlt : (egcd (n + 1) g n).2.1 % (n : Int) < (n : Int) := Int.emod_lt_of_pos _ hpos
  refine ⟨((egcd (n + 1) g n).2.1 % (n : Int)).toNat, ?_, ?_, ?_⟩
  · simp only [modInverse]
    rw [if_pos h1]
  · omega
  · have hv : (((egcd (n + 1) g n).2.1 % (n : Int)).toNat : Int) =
        (egcd (n + 1) g n).2.1 % (n : Int) := Int.toNat_of_nonneg hnonneg
    have hmul : ((g : Int) * (((egcd (n + 1) g n).2.1 % (n : Int)).toNat : Int)) % (n : Int)
        = 1 := by
      rw [hv, Int.mul_emod, Int.emod_emod_of_dvd _ dvd_rfl, ← Int.mul_emod]
      have hx : (g : Int) * (egcd (n + 1) g n).2.1 =
          1 - (n : Int) * (egcd (n + 1) g n).2.2 := by
        linear_combination h2
      rw [hx, Int.sub_emod, Int.mul_emod_right, sub_zero, Int.emod_emod_of_dvd _ dvd_rfl]
      exact Int.emod_eq_of_lt (by omega) (by omega)
    have hcast : (((g * (((egcd (n + 1) g n).2.1 % (n : Int)).toNat)) % n : Nat) : Int)
        = ((g : Int) * (((egcd (n + 1) g n).2.1 % (n : Int)).toNat : Int)) % (n : Int) := by
      push_cast
      rfl
    omega

theorem modInverse_lt (g n v : Nat) (hn : 0 < n) (h : modInverse g n = some v) : v < n := by
  simp only [modInverse] at h
  by_cases hc : (egcd (n + 1) g n).1 = 1
  · rw [if_pos hc] at h
    have h1 : 0 ≤ (egcd (n + 1) g n).2.1 % (n : Int) :=
      Int.emod_nonneg _ (by omega)
    have h2 : (egcd (n + 1) g n).2.1 % (n : Int) < (n : Int) :=
      Int.emod_lt_of_pos _ (by omega)
    simp only [Option.some.injEq] at h
    omega
  · rw [if_neg hc] at h
    simp at h

theorem decompressPoint_eq (x y : Nat) (hy0 : 0 < y) (hyP : y < P)
    (hms : modSqrt ((x * x * x + 7) % P) P = some y ∨
      modSqrt ((x * x * x + 7) % P) P = some (P - y)) :
    decompressPoint x (y % 2 == 1) = some y := by
  have hP2 : P % 2 = 1 := by decide
  have hpm : (P - y) % 2 = 1 - y % 2 := by omega
  rcases hms with hm | hm
  · simp only [decompressPoint]
    rw [hm]
    simp
  · simp only [decompressPoint]
    rw [hm]
    have hyy : P - (P - y) = y := by omega
    rcases Nat.mod_two_eq_zero_or_one y with h | h
    · rw [h] at hpm
      simp [h, hpm, hyy]
    · rw [h] at hpm
      simp [h, hpm, hyy]

/-- C2: the claim says `DecodeToPoint` never panics; but on the well-formed
33-byte input `02 ‖ 00…00 05` (x = 5, where x³ + 7 = 132 is a quadratic
non-residue mod P) the `decompressPoint` helper takes its
`panic("invalid point: no square root")` branch instead of returning an
error, because `big.Int.ModSqrt` returns nil exactly when the Jacobi
symbol is −1. -/
theorem decodeToPoint_panics_on_non_residue :
    DecodeToPoint nonResidueInput = DecodeOutcome.panicked := by decide

/-- C3 counterexample: `DecodeToScalar` accepts the 32-byte all-0xFF input
and returns the raw value 2^256 − 1, which is not less than the group
order `N`; so not every scalar produced by an accepted `DecodeToScalar`
input is below the order. -/
theorem decodeToScalar_result_can_exceed_order :
    DecodeToScalar (List.replicate 32 255) = some ⟨2 ^ 256 - 1⟩ ∧ N ≤ 2 ^ 256 - 1 := by
  constructor
  · decide
  · decide

/-- C3 (amended): the arithmetic results (`Add`, `Sub`, `Negate`, `Mul`,
`Inverse`, `HashToScalar`) are always reduced below the group order `N`,
but `DecodeToScalar`, `ScalarFromBytes` and `NewRandomScalar` store the
raw 32-byte big-endian value without reduction, so their results can be
as large as 2^256 − 1 ≥ N. -/
theorem scalar_ops_partially_reduced :
    (∀ a b : ScalarImpl, (a.Add b).value < N) ∧
    (∀ a b : ScalarImpl, (a.Sub b).value < N) ∧
    (∀ a : ScalarImpl, a.Negate.value < N) ∧
    (∀ a b : ScalarImpl, (a.Mul b).value < N) ∧
    (∀ a : ScalarImpl, a.Inverse.value < N) ∧
    (∀ sha3 inp s, HashToScalar sha3 inp = some s → s.value < N) ∧
    (∀ inp s, DecodeToScalar inp = some s → s.value = beToNat inp) ∧
    (∀ b, (ScalarFromBytes b).value = beToNat b.reverse) ∧
    (∀ rnd, (NewRandomScalar rnd).value = beToNat rnd) := by
  have hN : 0 < N := by decide
  have hNZ : (N : Int) ≠ 0 := by
    intro h
    omega
  have hNP : (0 : Int) < (N : Int) := by omega
  refine ⟨?_, ?_, ?_, ?_, ?_, ?_, ?_, ?_, ?_⟩
  · intro a b
    exact Nat.mod_lt _ hN
  · intro a b
    have h1 := Int.emod_nonneg ((a.value : Int) - (b.value : Int)) hNZ
    have h2 := Int.emod_lt_of_pos ((a.value : Int) - (b.value : Int)) hNP
    simp only [ScalarImpl.Sub]
    omega
  · intro a
    have h1 := Int.emod_nonneg ((N : Int) - (a.value : Int)) hNZ
    have h2 := Int.emod_lt_of_pos ((N : Int) - (a.value : Int)) hNP
    simp only [ScalarImpl.Negate]
    omega
  · intro a b
    exact Nat.mod_lt _ hN
  · intro a
    simp only [ScalarImpl.Inverse]
    rcases hmv : modInverse a.value N with _ | v
    · exact hN
    · exact modInverse_lt a.value N v hN hmv
  · intro sha3 inp s hs
    simp only [HashToScalar, Option.some.injEq] at hs
    rw [← hs]
    exact Nat.mod_lt _ hN
  · intro inp s hs
    simp only [DecodeToScalar] at hs
    by_cases hl : inp.length ≠ 32
    · rw [if_pos hl] at hs
      simp at hs
    · rw [if_neg hl] at hs
      simp only [Option.some.injEq] at hs
      rw [← hs]
  · intro b
    rfl
  · intro rnd
    rfl

/-- Witness for the amended C3 theorem: the `HashToScalar` clause at a
concrete digest function. -/
theorem scalar_ops_partially_reduced_witness : (ScalarImpl.mk (beToNat [9] % N)).value < N :=
  scalar_ops_partially_reduced.2.2.2.2.2.1 (fun _ => [9]) [] ⟨beToNat [9] % N⟩ rfl

/-- C4: `HashToScalar` always succeeds, its result is exactly the SHA3-512
digest (the external `sha3.Sum512`, a parameter here) read big-endian and
reduced modulo the group order, it is strictly below the order, and it is
deterministic in the input. -/
theorem hashToScalar_spec (sha3 : List Nat → List Nat) (inp : List Nat) :
    HashToScalar sha3 inp = some ⟨beToNat (sha3 inp) % N⟩ ∧
    (∀ s, HashToScalar sha3 inp = some s → s.value < N) ∧
    (∀ inp2, inp = inp2 → HashToScalar sha3 inp = HashToScalar sha3 inp2) := by
  refine ⟨rfl, ?_, ?_⟩
  · intro s hs
    simp only [HashToScalar, Option.some.injEq] at hs
    rw [← hs]
    exact Nat.mod_lt _ (by decide)
  · intro inp2 h
    rw [h]

/-- Witness for C4 at a concrete digest function and input. -/
theorem hashToScalar_spec_witness :
    HashToScalar (fun _ => List.replicate 64 255) [] =
      some ⟨beToNat (List.replicate 64 255) % N⟩ :=
  (hashToScalar_spec (fun _ => List.replicate 64 255) []).1

/-- C6: a point `(x, y)` on the curve (0 < y < P, x < P, y² ≡ x³ + 7 mod P)
encodes to a 33-byte compressed string that `DecodeToPoint` accepts and
decodes to an equal point.  The hypothesis `hms` is the contract of the
external `big.Int.ModSqrt` at this input: for an odd prime modulus it
returns one of the two square roots of the residue `x³ + 7`. -/
theorem point_encode_decode_roundtrip (x y : Nat) (hx : x < P) (hy0 : 0 < y) (hyP : y < P)
    (hcurve : y * y % P = (x * x * x + 7) % P)
    (hms : modSqrt ((x * x * x + 7) % P) P = some y ∨
      modSqrt ((x * x * x + 7) % P) P = some (P - y)) :
    ∃ enc p2, PointImpl.Encode ⟨x, y⟩ = some enc ∧ enc.length = 33 ∧
      DecodeToPoint enc = DecodeOutcome.ok p2 ∧ p2.Equals ⟨x, y⟩ = true := by
  have hx256 : x < 256 ^ 32 := lt_trans hx (by decide)
  have hfill : fillBytes 32 x = some (beBytesFixed 32 x) := by
    rw [fillBytes, if_pos hx256]
  have hxval : beToNat (beBytesFixed 32 x) = x := beToNat_beBytesFixed 32 x hx256
  have hdec := decompressPoint_eq x y hy0 hyP hms
  refine ⟨(if y % 2 = 1 then 3 else 2) :: beBytesFixed 32 x, ⟨x, y⟩, ?_, ?_, ?_, ?_⟩
  · rw [PointImpl.Encode, hfill]
    rfl
  · simp [beBytesFixed_length]
  · rcases Nat.mod_two_eq_zero_or_one y with hpar | hpar
    · rw [if_neg (by omega)]
      have hdec2 : decompressPoint x false = some y := by
        have hb : (y % 2 == 1) = false := by rw [hpar]; rfl
        rw [hb] at hdec
        exact hdec
      have hc1 : ¬ ((2 : Nat) :: beBytesFixed 32 x).length ≠ 33 := by
        simp [beBytesFixed_length]
      have hc2 : ¬ (((2 : Nat) :: beBytesFixed 32 x).getD 0 0 ≠ 2 ∧
          ((2 : Nat) :: beBytesFixed 32 x).getD 0 0 ≠ 3) := by simp
      simp only [DecodeToPoint]
      rw [if_neg hc1, if_neg hc2]
      have hd : ((2 : Nat) :: beBytesFixed 32 x).drop 1 = beBytesFixed 32 x := rfl
      have hg : (((2 : Nat) :: beBytesFixed 32 x).getD 0 0 == 3) = false := rfl
      rw [hd, hg, hxval, hdec2]
    · rw [if_pos hpar]
      have hdec2 : decompressPoint x true = some y := by
        have hb : (y % 2 == 1) = true := by rw [hpar]; rfl
        rw [hb] at hdec
        exact hdec
      have hc1 : ¬ ((3 : Nat) :: beBytesFixed 32 x).length ≠ 33 := by
        simp [beBytesFixed_length]
      have hc2 : ¬ (((3 : Nat) :: beBytesFixed 32 x).getD 0 0 ≠ 2 ∧
          ((3 : Nat) :: beBytesFixed 32 x).getD 0 0 ≠ 3) := by simp
      simp only [DecodeToPoint]
      rw [if_neg hc1, if_neg hc2]
      have hd : ((3 : Nat) :: beBytesFixed 32 x).drop 1 = beBytesFixed 32 x := rfl
      have hg : (((3 : Nat) :: beBytesFixed 32 x).getD 0 0 == 3) = true := rfl
      rw [hd, hg, hxval, hdec2]
  · simp [PointImpl.Equals]

/-- Witness for C6 at the generator point: all hypotheses, including the
`ModSqrt` contract instance, hold by computation. -/
theorem point_encode_decode_roundtrip_witness :
    ∃ enc p2, PointImpl.Encode ⟨gx, gy⟩ = some enc ∧ enc.length = 33 ∧
      DecodeToPoint enc = DecodeOutcome.ok p2 ∧ p2.Equals ⟨gx, gy⟩ = true :=
  point_encode_decode_roundtrip gx gy (by decide) (by decide) (by decide) (by decide)
    (Or.inl (by decide))

/-- C7: the group descriptor reports `BitSize() = 255` and
`CompressedPointSize() = 33`, and `Encode` of every point whose
x-coordinate fits in 32 bytes is exactly `CompressedPointSize()` bytes
long. -/
theorem bitSize_and_encode_length :
    BitSize = 255 ∧ CompressedPointSize = 33 ∧
    (∀ p : PointImpl, p.x < 2 ^ 256 →
      ∃ enc, p.Encode = some enc ∧ enc.length = CompressedPointSize) := by
  refine ⟨rfl, rfl, ?_⟩
  intro p hp
  have hp256 : p.x < 256 ^ 32 := by
    have h : (256 : Nat) ^ 32 = 2 ^ 256 := by norm_num
    omega
  have hfill : fillBytes 32 p.x = some (beBytesFixed 32 p.x) := by
    rw [fillBytes, if_pos hp256]
  refine ⟨(if p.y % 2 = 1 then 3 else 2) :: beBytesFixed 32 p.x, ?_, ?_⟩
  · rw [PointImpl.Encode, hfill]
    rfl
  · simp [beBytesFixed_length, CompressedPointSize]

/-- Witness for C7 at the base point. -/
theorem bitSize_and_encode_length_witness :
    ∃ enc, BasePoint.Encode = some enc ∧ enc.length = CompressedPointSize :=
  bitSize_and_encode_length.2.2 BasePoint (by decide)

/-- C8: the claim says `Inverse` panics — never returns — when the
receiver has no inverse mod the order, in particular at zero.  The code
disagrees: its `result == nil` test inspects the receiver pointer (never
nil) rather than `ModInverse`'s return value, so the panic branch is
unreachable and `Inverse` of any no-inverse scalar — in particular the
zero scalar — returns the zero-valued scalar (the pooled `big.Int` left
unchanged).  The claim's second half does hold: for every non-zero
scalar strictly below the order, `Mul` with the `Inverse` result gives
the scalar 1. -/
theorem inverse_dead_panic :
    ScalarImpl.Inverse ⟨0⟩ = ⟨0⟩ ∧
    (∀ s : ScalarImpl, Nat.gcd s.value N ≠ 1 → s.Inverse = ⟨0⟩) ∧
    (∀ s : ScalarImpl, 0 < s.value → s.value < N → s.Mul s.Inverse = ⟨1⟩) := by
  have hN1 : 1 < N := by decide
  have hno : ∀ s : ScalarImpl, Nat.gcd s.value N ≠ 1 → s.Inverse = ⟨0⟩ := by
    intro s hg
    simp only [ScalarImpl.Inverse]
    rw [modInverse_eq_none s.value N hg]
  refine ⟨?_, hno, ?_⟩
  · apply hno
    rw [Nat.gcd_zero_left]
    decide
  · intro s h0 hlt
    have hnd : ¬ N ∣ s.value := by
      intro hdvd
      exact absurd (Nat.le_of_dvd h0 hdvd) (by omega)
    have hcop : Nat.Coprime N s.value := (Nat.Prime.coprime_iff_not_dvd N_prime).mpr hnd
    have hg : Nat.gcd s.value N = 1 := hcop.symm
    obtain ⟨v, hsome, hvlt, hmul⟩ := modInverse_some s.value N hN1 hg
    have hsv : s.Inverse = ⟨v⟩ := by
      simp only [ScalarImpl.Inverse]
      rw [hsome]
    rw [hsv]
    simp only [ScalarImpl.Mul]
    rw [hmul]

/-- Witness for C8: at the scalar 2 the inverse multiplies back to 1. -/
theorem inverse_dead_panic_witness :
    ScalarImpl.Mul ⟨2⟩ (ScalarImpl.Inverse ⟨2⟩) = ⟨1⟩ :=
  inverse_dead_panic.2.2 ⟨2⟩ (by decide) (by decide)

/-- C9: for all components representable in at most 32 big-endian bytes,
`decodeDER (encodeDER r s)` succeeds with exactly `(r, s)`. -/
theorem der_roundtrip (r s : Nat) (hr : r < 2 ^ 256) (hs : s < 2 ^ 256) :
    decodeDER (encodeDER r s) = DEROutcome.ok r s := by
  have h : (256 : Nat) ^ 32 = 2 ^ 256 := by norm_num
  exact decodeDER_encodeDER r s (by omega) (by omega)

/-- Witness for C9 at concrete components, one of them with the top bit
of its leading byte set (exercising the 0x00 padding). -/
theorem der_roundtrip_witness :
    decodeDER (encodeDER 123456789 255) = DEROutcome.ok 123456789 255 :=
  der_roundtrip 123456789 255 (by norm_num) (by norm_num)

theorem take_add_split (m n : Nat) (l : List Nat) :
    l.take (m + n) = l.take m ++ (l.drop m).take n := by
  have h1 := List.take_append_drop m (l.take (m + n))
  rw [List.take_take] at h1
  have hmin : min m (m + n) = m := by omega
  rw [hmin] at h1
  rw [← List.take_drop] at h1
  exact h1.symm

/-- C10: given the external library's identity between base-point
multiplication and general multiplication at the generator coordinates
(which are the same constants `basePoint()` stores), `ScalarBaseMul s`
and `ScalarMul s (BasePoint())` return points that compare equal under
`Equals`, for every scalar value that fits in 32 bytes. -/
theorem scalarBaseMul_eq_scalarMul_base
    (libBaseMult : List Nat → Nat × Nat) (libMult : Nat → Nat → List Nat → Nat × Nat)
    (hlib : ∀ bs, libBaseMult bs = libMult gx gy bs)
    (s : ScalarImpl) (hs : s.value < 2 ^ 256) :
    ∃ p1 p2, ScalarBaseMul libBaseMult s = some p1 ∧
      ScalarMul libMult s BasePoint = some p2 ∧ p1.Equals p2 = true := by
  have h : (256 : Nat) ^ 32 = 2 ^ 256 := by norm_num
  have hfill : fillBytes 32 s.value = some (beBytesFixed 32 s.value) := by
    rw [fillBytes, if_pos (by omega)]
  refine ⟨⟨(libBaseMult (beBytesFixed 32 s.value)).1,
      (libBaseMult (beBytesFixed 32 s.value)).2⟩,
    ⟨(libMult BasePoint.x BasePoint.y (beBytesFixed 32 s.value)).1,
      (libMult BasePoint.x BasePoint.y (beBytesFixed 32 s.value)).2⟩, ?_, ?_, ?_⟩
  · rw [ScalarBaseMul, hfill]
    rfl
  · rw [ScalarMul, hfill]
    rfl
  · simp [PointImpl.Equals, BasePoint, hlib]

/-- Witness for C10 with a concrete pair of library functions satisfying
the identity, at the scalar 5. -/
theorem scalarBaseMul_eq_scalarMul_base_witness :
    ∃ p1 p2, ScalarBaseMul (fun bs => (gx + beToNat bs, gy)) ⟨5⟩ = some p1 ∧
      ScalarMul (fun x y bs => (x + beToNat bs, y)) ⟨5⟩ BasePoint = some p2 ∧
      p1.Equals p2 = true :=
  scalarBaseMul_eq_scalarMul_base (fun bs => (gx + beToNat bs, gy))
    (fun x y bs => (x + beToNat bs, y)) (fun _ => rfl) ⟨5⟩ (by norm_num)

/-- C5: `Sign` followed by `Verify` under the matching public key
round-trips through the DER conversion, assuming the external library
contract: `ethsecp256k1.Sign` returns a 65-byte `r ‖ s ‖ v` signature of
bytes, and `ethsecp256k1.VerifySignature` accepts
`(04 ‖ X ‖ Y, hash, r ‖ s)` where `(X, Y) = ScalarBaseMult(priv)` is the
signer's public key.  Everything the repository's code adds around those
calls — the 32-byte key packing, message hashing, DER encoding and
decoding, and the 64-byte signature repacking — preserves acceptance. -/
theorem sign_verify_roundtrip
    (ethSign : List Nat → List Nat → Option (List Nat))
    (ethVerify : List Nat → List Nat → List Nat → Bool)
    (libBaseMult : List Nat → Nat × Nat)
    (sha256 : List Nat → List Nat)
    (s : ScalarImpl) (p : PointImpl)
    (hs : s.value < 2 ^ 256) (hpx : p.x < 2 ^ 256)
    (msg : List Nat) (hmsg : p.Encode = some msg)
    (sig : List Nat)
    (hsig : ethSign (sha256 msg) (beBytesFixed 32 s.value) = some sig)
    (hlen : sig.length = 65) (hbytes : ∀ b ∈ sig, b < 256)
    (hX : (libBaseMult (beBytesFixed 32 s.value)).1 < 2 ^ 256)
    (hY : (libBaseMult (beBytesFixed 32 s.value)).2 < 2 ^ 256)
    (hver : ethVerify
      (4 :: (beBytesFixed 32 (libBaseMult (beBytesFixed 32 s.value)).1 ++
        beBytesFixed 32 (libBaseMult (beBytesFixed 32 s.value)).2))
      (sha256 msg) (sig.take 64) = true) :
    ∃ der pub, Sign ethSign sha256 s p = some der ∧
      ScalarBaseMul libBaseMult s = some pub ∧
      Verify ethVerify sha256 pub p der = some true := by
  have h2556 : (256 : Nat) ^ 32 = 2 ^ 256 := by norm_num
  have hfillS : fillBytes 32 s.value = some (beBytesFixed 32 s.value) := by
    rw [fillBytes, if_pos (by omega)]
  have hrlen : (sig.take 32).length = 32 := by
    rw [List.length_take]
    omega
  have hslen : ((sig.drop 32).take 32).length = 32 := by
    rw [List.length_take, List.length_drop]
    omega
  have hrbytes : ∀ b ∈ sig.take 32, b < 256 := fun b hb =>
    hbytes b (List.mem_of_mem_take hb)
  have hsbytes : ∀ b ∈ (sig.drop 32).take 32, b < 256 := fun b hb =>
    hbytes b (List.mem_of_mem_drop (List.mem_of_mem_take hb))
  have hrlt : beToNat (sig.take 32) < 256 ^ 32 := by
    have := beToNat_lt (sig.take 32) hrbytes
    rw [hrlen] at this
    exact this
  have hslt : beToNat ((sig.drop 32).take 32) < 256 ^ 32 := by
    have := beToNat_lt ((sig.drop 32).take 32) hsbytes
    rw [hslen] at this
    exact this
  have hrback : beBytesFixed 32 (beToNat (sig.take 32)) = sig.take 32 := by
    have := beBytesFixed_beToNat (sig.take 32) hrbytes
    rw [hrlen] at this
    exact this
  have hsback : beBytesFixed 32 (beToNat ((sig.drop 32).take 32)) = (sig.drop 32).take 32 := by
    have := beBytesFixed_beToNat ((sig.drop 32).take 32) hsbytes
    rw [hslen] at this
    exact this
  have hsign : Sign ethSign sha256 s p =
      some (encodeDER (beToNat (sig.take 32)) (beToNat ((sig.drop 32).take 32))) := by
    rw [Sign, hfillS, Option.some_bind, hmsg, Option.some_bind, hsig, Option.some_bind,
      if_neg (by omega)]
  have hbase : ScalarBaseMul libBaseMult s = some ⟨(libBaseMult (beBytesFixed 32 s.value)).1,
      (libBaseMult (beBytesFixed 32 s.value)).2⟩ := by
    rw [ScalarBaseMul, hfillS, Option.map_some']
  refine ⟨_, _, hsign, hbase, ?_⟩
  simp only [Verify, decodeDER_encodeDER _ _ hrlt hslt]
  have hfillR : fillBytes 32 (beToNat (sig.take 32)) = some (sig.take 32) := by
    rw [fillBytes, if_pos hrlt, hrback]
  have hfillSS : fillBytes 32 (beToNat ((sig.drop 32).take 32)) =
      some ((sig.drop 32).take 32) := by
    rw [fillBytes, if_pos hslt, hsback]
  have hfillX : fillBytes 32 (libBaseMult (beBytesFixed 32 s.value)).1 =
      some (beBytesFixed 32 (libBaseMult (beBytesFixed 32 s.value)).1) := by
    rw [fillBytes, if_pos (by omega)]
  have hfillY : fillBytes 32 (libBaseMult (beBytesFixed 32 s.value)).2 =
      some (beBytesFixed 32 (libBaseMult (beBytesFixed 32 s.value)).2) := by
    rw [fillBytes, if_pos (by omega)]
  rw [hfillR, Option.some_bind, hfillSS, Option.some_bind, hfillX, Option.some_bind,
    hfillY, Option.some_bind, hmsg, Option.map_some']
  have htake : sig.take 32 ++ (sig.drop 32).take 32 = sig.take 64 := by
    have := take_add_split 32 32 sig
    rw [← this]
  rw [htake, hver]

/-- Witness for C5 with concrete dummy library functions satisfying the
contract (a constant 65-byte signature and an accepting verifier), at the
scalar 1 and the base point. -/
theorem sign_verify_roundtrip_witness :
    ∃ der pub, Sign (fun _ _ => some (List.replicate 65 7)) (fun _ => [])
        ⟨1⟩ BasePoint = some der ∧
      ScalarBaseMul (fun _ => (1, 2)) ⟨1⟩ = some pub ∧
      Verify (fun _ _ _ => true) (fun _ => []) pub BasePoint der = some true := by
  refine sign_verify_roundtrip (fun _ _ => some (List.replicate 65 7)) (fun _ _ _ => true)
    (fun _ => (1, 2)) (fun _ => []) ⟨1⟩ BasePoint (by norm_num) (by decide)
    (2 :: beBytesFixed 32 gx) (by decide)
    (List.replicate 65 7) rfl (by decide) ?_ (by norm_num) (by norm_num) rfl
  intro b hb
  have := List.eq_of_mem_replicate hb
  omega

theorem ringChecks_complete0 (n : ℕ) {Pt : Type} [AddCommGroup Pt] [Module (ZMod n) Pt]
    (G H : Pt) (r k zs cs e : ZMod n) :
    ringChecks n G H ((0 : ℕ) • G + r • H)
      ⟨k • H, zs • H - cs • (((0 : ℕ) • G + r • H) - G),
        k + (e - cs) * r, zs, e - cs, cs⟩ e := by
  refine ⟨?_, ?_, ?_⟩
  · show (e - cs) + cs = e
    ring
  · show (k + (e - cs) * r) • H = k • H + (e - cs) • ((0 : ℕ) • G + r • H)
    rw [zero_smul, zero_add, add_smul, mul_smul]
  · show zs • H = (zs • H - cs • (((0 : ℕ) • G + r • H) - G)) +
      cs • (((0 : ℕ) • G + r • H) - G)
    abel

theorem ringChecks_complete1 (n : ℕ) {Pt : Type} [AddCommGroup Pt] [Module (ZMod n) Pt]
    (G H : Pt) (r k zs cs e : ZMod n) :
    ringChecks n G H ((1 : ℕ) • G + r • H)
      ⟨zs • H - cs • ((1 : ℕ) • G + r • H), k • H,
        zs, k + (e - cs) * r, cs, e - cs⟩ e := by
  refine ⟨?_, ?_, ?_⟩
  · show cs + (e - cs) = e
    ring
  · show zs • H = (zs • H - cs • ((1 : ℕ) • G + r • H)) + cs • ((1 : ℕ) • G + r • H)
    abel
  · show (k + (e - cs) * r) • H = k • H + (e - cs) • (((1 : ℕ) • G + r • H) - G)
    rw [one_smul, add_sub_cancel_left, add_smul, mul_smul]

theorem bitCheck_buildBit (n₁ n₂ : ℕ) {G₁ G₂ : Type} [AddCommGroup G₁] [AddCommGroup G₂]
    [Module (ZMod n₁) G₁] [Module (ZMod n₂) G₂]
    (GA HA : G₁) (GB HB : G₂)
    (fsHash : ℕ → G₁ × G₁ × G₁ → G₂ × G₂ × G₂ → ℕ)
    (i b : ℕ) (hb : b = 0 ∨ b = 1)
    (rA kA zsA csA : ZMod n₁) (rB kB zsB csB : ZMod n₂) :
    bitCheck n₁ n₂ GA HA GB HB fsHash i
      (buildBit n₁ n₂ GA HA GB HB fsHash i b rA kA zsA csA rB kB zsB csB) := by
  rcases hb with rfl | rfl
  · exact ⟨ringChecks_complete0 n₁ GA HA rA kA zsA csA _,
      ringChecks_complete0 n₂ GB HB rB kB zsB csB _⟩
  · exact ⟨ringChecks_complete1 n₁ GA HA rA kA zsA csA _,
      ringChecks_complete1 n₂ GB HB rB kB zsB csB _⟩

theorem checkBits_buildBits (n₁ n₂ : ℕ) {G₁ G₂ : Type} [AddCommGroup G₁] [AddCommGroup G₂]
    [Module (ZMod n₁) G₁] [Module (ZMod n₂) G₂]
    (GA HA : G₁) (GB HB : G₂)
    (fsHash : ℕ → G₁ × G₁ × G₁ → G₂ × G₂ × G₂ → ℕ)
    (x : ℕ) (rA kA zsA csA : ℕ → ZMod n₁) (rB kB zsB csB : ℕ → ZMod n₂) :
    ∀ c k, checkBits n₁ n₂ GA HA GB HB fsHash k
      (buildBits n₁ n₂ GA HA GB HB fsHash x rA kA zsA csA rB kB zsB csB k c) := by
  intro c
  induction c with
  | zero => intro k; exact trivial
  | succ c ih =>
    intro k
    exact ⟨bitCheck_buildBit n₁ n₂ GA HA GB HB fsHash k (secretBit x k)
        (by unfold secretBit; omega)
        (rA k) (kA k) (zsA k) (csA k) (rB k) (kB k) (zsB k) (csB k),
      ih (k + 1)⟩

theorem buildBits_length (n₁ n₂ : ℕ) {G₁ G₂ : Type} [AddCommGroup G₁] [AddCommGroup G₂]
    [Module (ZMod n₁) G₁] [Module (ZMod n₂) G₂]
    (GA HA : G₁) (GB HB : G₂)
    (fsHash : ℕ → G₁ × G₁ × G₁ → G₂ × G₂ × G₂ → ℕ)
    (x : ℕ) (rA kA zsA csA : ℕ → ZMod n₁) (rB kB zsB csB : ℕ → ZMod n₂) :
    ∀ c k, (buildBits n₁ n₂ GA HA GB HB fsHash x rA kA zsA csA rB kB zsB csB k c).length = c := by
  intro c
  induction c with
  | zero => intro k; rfl
  | succ c ih =>
    intro k
    show (buildBits n₁ n₂ GA HA GB HB fsHash x rA kA zsA csA rB kB zsB csB (k + 1) c).length
        + 1 = c + 1
    rw [ih (k + 1)]

theorem weightedSum_CA_buildBits (n₁ n₂ : ℕ) {G₁ G₂ : Type}
    [AddCommGroup G₁] [AddCommGroup G₂]
    [Module (ZMod n₁) G₁] [Module (ZMod n₂) G₂]
    (GA HA : G₁) (GB HB : G₂)
    (fsHash : ℕ → G₁ × G₁ × G₁ → G₂ × G₂ × G₂ → ℕ)
    (x : ℕ) (rA kA zsA csA : ℕ → ZMod n₁) (rB kB zsB csB : ℕ → ZMod n₂) :
    ∀ c k, weightedSum k
        ((buildBits n₁ n₂ GA HA GB HB fsHash x rA kA zsA csA rB kB zsB csB k c).map
          fun bp => bp.CA) =
      ((bitRecompose x k c : ℕ) : ZMod n₁) • GA + blindSum n₁ rA k c • HA := by
  intro c
  induction c with
  | zero =>
    intro k
    show (0 : G₁) = ((0 : ℕ) : ZMod n₁) • GA + (0 : ZMod n₁) • HA
    rw [Nat.cast_zero, zero_smul, zero_smul, add_zero]
  | succ c ih =>
    intro k
    show 2 ^ k • (secretBit x k • GA + rA k • HA) +
        weightedSum (k + 1)
          ((buildBits n₁ n₂ GA HA GB HB fsHash x rA kA zsA csA rB kB zsB csB (k + 1) c).map
            fun bp => bp.CA) =
      ((2 ^ k * secretBit x k + bitRecompose x (k + 1) c : ℕ) : ZMod n₁) • GA +
        (((2 ^ k : ℕ) : ZMod n₁) * rA k + blindSum n₁ rA (k + 1) c) • HA
    rw [ih (k + 1)]
    have hb : (2 : ℕ) ^ k • (secretBit x k • GA) =
        ((2 ^ k * secretBit x k : ℕ) : ZMod n₁) • GA := by
      rw [smul_smul, Nat.cast_smul_eq_nsmul]
    have hr : (2 : ℕ) ^ k • (rA k • HA) = (((2 ^ k : ℕ) : ZMod n₁) * rA k) • HA := by
      rw [mul_smul, Nat.cast_smul_eq_nsmul]
    rw [smul_add, hb, hr, Nat.cast_add, add_smul, add_smul]
    abel

theorem weightedSum_CB_buildBits (n₁ n₂ : ℕ) {G₁ G₂ : Type}
    [AddCommGroup G₁] [AddCommGroup G₂]
    [Module (ZMod n₁) G₁] [Module (ZMod n₂) G₂]
    (GA HA : G₁) (GB HB : G₂)
    (fsHash : ℕ → G₁ × G₁ × G₁ → G₂ × G₂ × G₂ → ℕ)
    (x : ℕ) (rA kA zsA csA : ℕ → ZMod n₁) (rB kB zsB csB : ℕ → ZMod n₂) :
    ∀ c k, weightedSum k
        ((buildBits n₁ n₂ GA HA GB HB fsHash x rA kA zsA csA rB kB zsB csB k c).map
          fun bp => bp.CB) =
      ((bitRecompose x k c : ℕ) : ZMod n₂) • GB + blindSum n₂ rB k c • HB := by
  intro c
  induction c with
  | zero =>
    intro k
    show (0 : G₂) = ((0 : ℕ) : ZMod n₂) • GB + (0 : ZMod n₂) • HB
    rw [Nat.cast_zero, zero_smul, zero_smul, add_zero]
  | succ c ih =>
    intro k
    show 2 ^ k • (secretBit x k • GB + rB k • HB) +
        weightedSum (k + 1)
          ((buildBits n₁ n₂ GA HA GB HB fsHash x rA kA zsA csA rB kB zsB csB (k + 1) c).map
            fun bp => bp.CB) =
      ((2 ^ k * secretBit x k + bitRecompose x (k + 1) c : ℕ) : ZMod n₂) • GB +
        (((2 ^ k : ℕ) : ZMod n₂) * rB k + blindSum n₂ rB (k + 1) c) • HB
    rw [ih (k + 1)]
    have hb : (2 : ℕ) ^ k • (secretBit x k • GB) =
        ((2 ^ k * secretBit x k : ℕ) : ZMod n₂) • GB := by
      rw [smul_smul, Nat.cast_smul_eq_nsmul]
    have hr : (2 : ℕ) ^ k • (rB k • HB) = (((2 ^ k : ℕ) : ZMod n₂) * rB k) • HB := by
      rw [mul_smul, Nat.cast_smul_eq_nsmul]
    rw [smul_add, hb, hr, Nat.cast_add, add_smul, add_smul]
    abel

theorem bitRecompose_mod (x : ℕ) : ∀ c k, bitRecompose x k c = 2 ^ k * (x / 2 ^ k % 2 ^ c) := by
  intro c
  induction c with
  | zero =>
    intro k
    show 0 = 2 ^ k * (x / 2 ^ k % 1)
    rw [Nat.mod_one, Nat.mul_zero]
  | succ c ih =>
    intro k
    show 2 ^ k * secretBit x k + bitRecompose x (k + 1) c = 2 ^ k * (x / 2 ^ k % 2 ^ (c + 1))
    rw [ih (k + 1)]
    unfold secretBit
    have hdd : x / 2 ^ (k + 1) = x / 2 ^ k / 2 := by
      rw [Nat.div_div_eq_div_mul, ← pow_succ]
    have hsplit : x / 2 ^ k % 2 ^ (c + 1) = x / 2 ^ k % 2 + 2 * (x / 2 ^ k / 2 % 2 ^ c) := by
      rw [pow_succ']
      exact Nat.mod_mul
    rw [hdd, hsplit, pow_succ]
    ring

/-- C1 (spec-modelled): for every pair of groups and every secret valid
for both — `x` below 2^numBits, with numBits at most both groups'
bit-sizes — the verifier accepts a freshly constructed proof:
`Verify(NewProof(A, B, x))` succeeds.  The Fiat–Shamir hash is an
arbitrary deterministic function and the two witness-signature schemes
are arbitrary functions satisfying their correctness contract
(`verify(pub, m, sign(x, m))` holds for `pub = x·G`), as the spec
delegates both to the group engines. -/
theorem dleq_newProof_verify (n₁ n₂ : ℕ) {G₁ G₂ : Type} [AddCommGroup G₁] [AddCommGroup G₂]
    [Module (ZMod n₁) G₁] [Module (ZMod n₂) G₂]
    (GA HA : G₁) (GB HB : G₂)
    (fsHash : ℕ → G₁ × G₁ × G₁ → G₂ × G₂ × G₂ → ℕ)
    (signA : ℕ → G₂ → List Nat) (signB : ℕ → G₁ → List Nat)
    (verifyA : G₁ → G₂ → List Nat → Bool) (verifyB : G₂ → G₁ → List Nat → Bool)
    (hsigA : ∀ (x : ℕ) (m : G₂), verifyA ((x : ZMod n₁) • GA) m (signA x m) = true)
    (hsigB : ∀ (x : ℕ) (m : G₁), verifyB ((x : ZMod n₂) • GB) m (signB x m) = true)
    (numBits x : ℕ) (hx : x < 2 ^ numBits)
    (rA kA zsA csA : ℕ → ZMod n₁) (rB kB zsB csB : ℕ → ZMod n₂) :
    VerifyModel n₁ n₂ GA HA GB HB fsHash verifyA verifyB numBits
      (NewProofModel n₁ n₂ GA HA GB HB fsHash signA signB numBits x
        rA kA zsA csA rB kB zsB csB) := by
  have hrec : bitRecompose x 0 numBits = x := by
    rw [bitRecompose_mod x numBits 0]
    simp [Nat.mod_eq_of_lt hx]
  refine ⟨?_, ?_, ?_, ?_, ?_, ?_⟩
  · exact buildBits_length n₁ n₂ GA HA GB HB fsHash x rA kA zsA csA rB kB zsB csB numBits 0
  · exact checkBits_buildBits n₁ n₂ GA HA GB HB fsHash x rA kA zsA csA rB kB zsB csB numBits 0
  · show weightedSum 0
        ((buildBits n₁ n₂ GA HA GB HB fsHash x rA kA zsA csA rB kB zsB csB 0 numBits).map
          fun bp => bp.CA) =
      (x : ZMod n₁) • GA + blindSum n₁ rA 0 numBits • HA
    rw [weightedSum_CA_buildBits n₁ n₂ GA HA GB HB fsHash x rA kA zsA csA rB kB zsB csB
      numBits 0, hrec]
  · show weightedSum 0
        ((buildBits n₁ n₂ GA HA GB HB fsHash x rA kA zsA csA rB kB zsB csB 0 numBits).map
          fun bp => bp.CB) =
      (x : ZMod n₂) • GB + blindSum n₂ rB 0 numBits • HB
    rw [weightedSum_CB_buildBits n₁ n₂ GA HA GB HB fsHash x rA kA zsA csA rB kB zsB csB
      numBits 0, hrec]
  · exact hsigA x _
  · exact hsigB x _

/-- Witness for C1 at a concrete instantiation: both groups are the
additive group of `ZMod 5`, generators 1 and 2, trivial Fiat–Shamir
hash, an always-accepting signature scheme, secret 3 over 2 bits, and
constant-1 randomness streams. -/
theorem dleq_newProof_verify_witness :
    VerifyModel 5 5 (1 : ZMod 5) 2 (1 : ZMod 5) 2 (fun _ _ _ => 0)
      (fun _ _ _ => true) (fun _ _ _ => true) 2
      (NewProofModel 5 5 (1 : ZMod 5) 2 (1 : ZMod 5) 2 (fun _ _ _ => 0)
        (fun _ _ => []) (fun _ _ => []) 2 3 (fun i => i) (fun _ => 1) (fun _ => 2)
        (fun _ => 3) (fun i => 2 * i) (fun _ => 4) (fun _ => 2) (fun _ => 3)) :=
  dleq_newProof_verify 5 5 (1 : ZMod 5) 2 (1 : ZMod 5) 2 (fun _ _ _ => 0)
    (fun _ _ => []) (fun _ _ => []) (fun _ _ _ => true) (fun _ _ _ => true)
    (fun _ _ => rfl) (fun _ _ => rfl) 2 3 (by norm_num)
    (fun i => i) (fun _ => 1) (fun _ => 2) (fun _ => 3)
    (fun i => 2 * i) (fun _ => 4) (fun _ => 2) (fun _ => 3)

end Secp256k1
